import Mathlib

/-!
Verification development for the vivibin binary-serialization core.

This file shallowly embeds the write-side layout engine of `src/lib.rs`
(`WriteHeap`, `HeapToken`, `WriteCtxImpl`, the assembly pass `to_buffer` /
`to_writer`, `align_to`), the read-side `SeekGuard` of `src/util.rs`, and the
primitive codecs of `src/default_impls.rs`, and proves/refutes the stated
properties about them.

Modelling conventions:
* Bytes are `Nat` (values kept below 256 by construction where it matters).
* `Cursor` models Rust's `std::io::Cursor<Vec<u8>>`: a byte vector plus a
  position; `write_all` overwrites from the position, zero-padding any gap
  when the position lies past the end, and extending the vector as needed.
* Machine integers (`u32` ids, `usize` offsets) are modelled as `Nat`;
  none of the scenarios approach the wrap-around range.
* Fallible Rust code (`Result`) is modelled with `Except`/`Option`; the
  out-of-bounds slice panic in `align_to` is modelled as `Option.none`.
-/

set_option maxRecDepth 8000

namespace Vivibin

/-- A byte of the output stream (kept < 256 by construction where relevant). -/
abbrev Byte := Nat

/-- Model of `std::io::Cursor<Vec<u8>>` (the `WriteCtxWriter` of `lib.rs`):
a growable byte vector together with a cursor position. -/
structure Cursor where
  data : List Byte
  pos : Nat
deriving DecidableEq

/-- Rust `Cursor::write_all`: overwrite starting at `pos` (zero-padding if
`pos` is past the end), extending the vector as needed; the position advances
past the written bytes. -/
def Cursor.writeAll (w : Cursor) (bs : List Byte) : Cursor :=
  let padded := w.data ++ List.replicate (w.pos - w.data.length) 0
  { data := padded.take w.pos ++ bs ++ padded.drop (w.pos + bs.length),
    pos := w.pos + bs.length }

/-- Rust `Writer::set_position` (a seek on the cursor; never fails on a
`Cursor<Vec<u8>>`). -/
def Cursor.setPos (w : Cursor) (p : Nat) : Cursor :=
  { w with pos := p }

theorem Cursor.writeAll_pos (w : Cursor) (bs : List Byte) :
    (w.writeAll bs).pos = w.pos + bs.length := rfl

/-- Writing with the cursor at the end of the data appends. -/
theorem Cursor.writeAll_at_end (w : Cursor) (bs : List Byte) (h : w.pos = w.data.length) :
    w.writeAll bs = ⟨w.data ++ bs, w.pos + bs.length⟩ := by
  simp [Cursor.writeAll, h, List.take_append_of_le_length, List.drop_eq_nil_of_le]

/-- Writing entirely inside the existing data overwrites in place. -/
theorem Cursor.writeAll_inside (w : Cursor) (bs : List Byte)
    (h : w.pos + bs.length ≤ w.data.length) :
    w.writeAll bs =
      ⟨w.data.take w.pos ++ bs ++ w.data.drop (w.pos + bs.length), w.pos + bs.length⟩ := by
  have hp : w.pos ≤ w.data.length := le_trans (Nat.le_add_right _ _) h
  simp [Cursor.writeAll, Nat.sub_eq_zero_of_le hp, List.take_append_of_le_length hp,
    List.drop_append_of_le_length h]

theorem Cursor.writeAll_inside_length (w : Cursor) (bs : List Byte)
    (h : w.pos + bs.length ≤ w.data.length) :
    (w.writeAll bs).data.length = w.data.length := by
  rw [Cursor.writeAll_inside w bs h]
  simp
  omega

/-- The 128-byte zero buffer `ZEROES` of `lib.rs`; `align_to` takes its
padding as a slice of this buffer. -/
def ZEROES : List Byte := List.replicate 128 0

/-- The padding count computed by `align_to` in `lib.rs`:
`((alignment - pos) % alignment + alignment) % alignment` in `isize`
arithmetic, where Rust's `%` is truncated remainder (`Int.tmod`). -/
def alignPaddingInt (alignment pos : Nat) : Int :=
  (((alignment : Int) - (pos : Int)).tmod (alignment : Int) + (alignment : Int)).tmod
    (alignment : Int)

/-- `align_to` from `lib.rs`: for alignment `0` a no-op, otherwise writes
`padding_size` zero bytes taken as a slice `&ZEROES[..padding_size]`; a
padding larger than 128 makes that slice panic, modelled as `none`. -/
def alignTo (w : Cursor) (alignment : Nat) : Option Cursor :=
  if alignment = 0 then
    some w
  else if (alignPaddingInt alignment w.pos).toNat ≤ ZEROES.length then
    some (w.writeAll (List.replicate (alignPaddingInt alignment w.pos).toNat 0))
  else
    none

/-- Truncated remainder negates with its dividend (Rust `%` on a negative
left operand). -/
theorem tmod_neg_dividend (x b : Int) : (-x).tmod b = -(x.tmod b) := by
  rw [Int.tmod_def, Int.tmod_def, Int.neg_tdiv]
  ring

/-- The first remainder-plus-alignment sum in `align_to` is nonnegative. -/
theorem tmod_add_self_nonneg (x a : Int) (ha : 0 < a) : 0 ≤ x.tmod a + a := by
  rcases le_or_lt 0 x with hge | hlt
  · have := Int.tmod_nonneg a hge
    omega
  · have h1 : x.tmod a = -((-x).tmod a) := by
      rw [tmod_neg_dividend]
      simp
    have h2 : (-x).tmod a < a := Int.tmod_lt_of_pos _ ha
    omega

theorem alignPaddingInt_nonneg (alignment pos : Nat) (h : 0 < alignment) :
    0 ≤ alignPaddingInt alignment pos := by
  have ha : (0 : Int) < (alignment : Int) := by exact_mod_cast h
  exact Int.tmod_nonneg _ (tmod_add_self_nonneg _ _ ha)

/-- Characterization of the "bonkers alignment calculation" of `lib.rs`:
the truncated-remainder formula computes `(A - pos % A) % A`. -/
theorem alignPaddingInt_eq (alignment pos : Nat) (h : 0 < alignment) :
    alignPaddingInt alignment pos = ((alignment - pos % alignment) % alignment : Nat) := by
  have ha : (0 : Int) < (alignment : Int) := by exact_mod_cast h
  set a : Int := (alignment : Int)
  set p : Int := (pos : Int)
  have hx : 0 ≤ ((a - p).tmod a + a) := tmod_add_self_nonneg _ _ ha
  have step1 : alignPaddingInt alignment pos = ((a - p).tmod a + a) % a := by
    rw [alignPaddingInt, Int.tmod_eq_emod hx (le_of_lt ha)]
  have step2 : ((a - p).tmod a + a) % a = ((a - p).tmod a) % a := by
    have h1 : (a - p).tmod a + a = (a - p).tmod a + a * 1 := by ring
    rw [h1, Int.add_mul_emod_self_left]
  have step3 : ((a - p).tmod a) % a = (a - p) % a := by
    rw [Int.tmod_def]
    have h1 : a - p - a * ((a - p).tdiv a) = a - p + a * (-((a - p).tdiv a)) := by ring
    rw [h1, Int.add_mul_emod_self_left]
  have step4 : (a - p) % a = (a - p % a) % a := by
    conv_lhs => rw [Int.sub_emod]
    conv_rhs => rw [Int.sub_emod]
    rw [Int.emod_emod_of_dvd _ (dvd_refl a)]
  have hcast : ((alignment - pos % alignment) % alignment : Nat) = ((a - p % a) % a : Int) := by
    have hle : pos % alignment ≤ alignment := le_of_lt (Nat.mod_lt _ h)
    push_cast [Nat.cast_sub hle]
    rfl
  rw [step1, step2, step3, step4, hcast]

/-- The padding count of `align_to` as a natural number. -/
def alignPadding (alignment pos : Nat) : Nat :=
  (alignment - pos % alignment) % alignment

theorem alignPaddingInt_toNat (alignment pos : Nat) (h : 0 < alignment) :
    (alignPaddingInt alignment pos).toNat = alignPadding alignment pos := by
  rw [alignPaddingInt_eq alignment pos h, alignPadding]
  exact Int.toNat_natCast _

/-- `HeapToken` of `lib.rs`: an opaque reference into a
`(heap_id, block_id, local offset)` triple. -/
structure HeapToken where
  heapId : Nat
  blockId : Nat
  offset : Nat
deriving DecidableEq

/-- `HeapToken::resolve`: `block_offsets[self.block_id] + self.offset`.
The Rust index panics when `block_id` is out of range; modelled as `none`. -/
def HeapToken.resolve (t : HeapToken) (blockOffsets : List Nat) : Option Nat :=
  (blockOffsets[t.blockId]?).map (· + t.offset)

/-- `HeapBlock` of `lib.rs`: a list of `(local offset, token)` relocations
plus the block's byte writer. -/
structure HeapBlock where
  relocations : List (Nat × HeapToken)
  writer : Cursor
deriving DecidableEq

/-- `HeapBlock::new` (`Default`): empty relocations, fresh cursor. -/
def HeapBlock.new : HeapBlock :=
  ⟨[], ⟨[], 0⟩⟩

/-- `WriteHeap` of `lib.rs`: a current-block index plus the list of blocks. -/
structure WriteHeap where
  currentBlock : Nat
  blocks : List HeapBlock
deriving DecidableEq

/-- `WriteHeap::new` (also its `Default`): one fresh block, current index 0. -/
def WriteHeap.new : WriteHeap :=
  ⟨0, [HeapBlock.new]⟩

/-- The block `self.blocks[self.current_block]` (always in range in every
reachable state; out of range falls back to a fresh block). -/
def WriteHeap.curBlock (h : WriteHeap) : HeapBlock :=
  h.blocks.getD h.currentBlock HeapBlock.new

/-- Replace the current block (helper for the mutations below). -/
def WriteHeap.setCurBlock (h : WriteHeap) (b : HeapBlock) : WriteHeap :=
  { h with blocks := h.blocks.set h.currentBlock b }

/-- A write through `cur_writer()` (`write_all` on the current block). -/
def WriteHeap.curWrite (h : WriteHeap) (bs : List Byte) : WriteHeap :=
  h.setCurBlock { h.curBlock with writer := h.curBlock.writer.writeAll bs }

/-- `WriteHeap::write_token::<BYTE_SIZE>`: push `(position, token)` onto the
current block's relocations, then write `BYTE_SIZE` zero placeholder bytes. -/
def WriteHeap.writeToken (h : WriteHeap) (byteSize : Nat) (t : HeapToken) : WriteHeap :=
  let b := h.curBlock
  let b := { b with relocations := b.relocations ++ [(b.writer.pos, t)] }
  let b := { b with writer := b.writer.writeAll (List.replicate byteSize 0) }
  h.setCurBlock b

/-- `WriteHeap::align_to` on the current block's writer. -/
def WriteHeap.alignTo (h : WriteHeap) (alignment : Nat) : Option WriteHeap :=
  (Vivibin.alignTo h.curBlock.writer alignment).map
    fun w => h.setCurBlock { h.curBlock with writer := w }

/-- `WriteHeap::heap_token_at_current_pos_inner`. -/
def WriteHeap.heapTokenAtCurrentPos (h : WriteHeap) (heapId : Nat) : HeapToken :=
  ⟨heapId, h.currentBlock, h.curBlock.writer.pos⟩

/-- `WriteHeap::seek_to_new_block`: if the current block is the last one,
append a fresh block and make it current; otherwise advance by one and
align. Returns a token at the new current position. `none` models the
`align_to` slice panic. -/
def WriteHeap.seekToNewBlock (h : WriteHeap) (alignment : Nat) (heapId : Nat) :
    Option (WriteHeap × HeapToken) :=
  if h.currentBlock = h.blocks.length - 1 then
    let h' : WriteHeap := ⟨h.blocks.length, h.blocks ++ [HeapBlock.new]⟩
    some (h', h'.heapTokenAtCurrentPos heapId)
  else
    let h' : WriteHeap := { h with currentBlock := h.currentBlock + 1 }
    (h'.alignTo alignment).map fun h'' => (h'', h''.heapTokenAtCurrentPos heapId)

/-- The `WriteDomain` capability used by the assembly pass: endianness plus
`apply_reference`.  `apply_reference(writer, heap_offset)` receives the
output cursor positioned at the placeholder and writes the driver's pointer
encoding there; it is modelled as the list of bytes written, as a function
of the placeholder position and the target's final absolute offset. -/
structure WriteDomain where
  littleEndian : Bool
  applyReference : Nat → Nat → List Byte

/-- Applying one extracted relocation inside `to_writer`'s patch loop:
save the cursor position, seek to the placeholder's absolute offset, let
the driver write the pointer encoding of `block_start + token.offset`
there, and restore the position. -/
def applyPatch (d : WriteDomain) (blockStart : Nat) (w : Cursor) (e : Nat × HeapToken) :
    Cursor :=
  (((w.setPos e.1).writeAll (d.applyReference e.1 (blockStart + e.2.offset))).setPos w.pos)

/-- One iteration of the block loop in `WriteHeap::to_writer` (`lib.rs`
lines 802-826): record the block start, append the block's bytes, extract
and apply the pending relocations that target this block (matched by
`block_id` only), then append this block's own relocations translated to
absolute offsets. -/
def toWriterStep (d : WriteDomain) (blockId : Nat) (b : HeapBlock)
    (w : Cursor) (offs : List Nat) (pend : List (Nat × HeapToken)) :
    Cursor × List Nat × List (Nat × HeapToken) :=
  let blockStart := w.pos
  let offs' := offs ++ [blockStart]
  let w' := w.writeAll b.writer.data
  let extracted := pend.filter fun e => e.2.blockId = blockId
  let remaining := pend.filter fun e => ¬ e.2.blockId = blockId
  let w'' := extracted.foldl (applyPatch d blockStart) w'
  let pend' := remaining ++ b.relocations.map fun r => (blockStart + r.1, r.2)
  (w'', offs', pend')

/-- The block loop of `WriteHeap::to_writer`, recursing over the remaining
blocks with their enumeration index. -/
def toWriterGo (d : WriteDomain) :
    List HeapBlock → Nat → Cursor → List Nat → List (Nat × HeapToken) →
    Cursor × List Nat × List (Nat × HeapToken)
  | [], _, w, offs, pend => (w, offs, pend)
  | b :: rest, blockId, w, offs, pend =>
    let s := toWriterStep d blockId b w offs pend
    toWriterGo d rest (blockId + 1) s.1 s.2.1 s.2.2

/-- `WriteHeap::to_writer`: runs the block loop with a fresh pending list.
Returns the writer, the accumulated block-offsets list, and the pending
relocations left over at termination (which the Rust function drops on
return without checking). -/
def WriteHeap.toWriter (h : WriteHeap) (w : Cursor) (d : WriteDomain) (offs : List Nat) :
    Cursor × List Nat × List (Nat × HeapToken) :=
  toWriterGo d h.blocks 0 w offs []

/-!
Relocation-application correctness infrastructure: the `k`-byte window of
the output at a given absolute position, disjointness of placeholder
windows, and the absolute start offsets of the blocks of a heap.
-/

/-- The `k`-byte window of `l` starting at absolute position `p`. -/
def sliceAt (l : List Byte) (p k : Nat) : List Byte :=
  (l.drop p).take k

/-- Two `k`-byte windows at `p` and `q` do not overlap. -/
def winDisj (k p q : Nat) : Prop :=
  p + k ≤ q ∨ q + k ≤ p

/-- The absolute start offsets of a run of blocks laid out from `base`
(each block start is the previous start plus that block's byte length,
matching the concatenation performed by `to_writer`). -/
def blockStarts (base : Nat) : List HeapBlock → List Nat
  | [] => []
  | b :: rest => base :: blockStarts (base + b.writer.data.length) rest

/-- Every relocation's placeholder window lies inside its own block's
bytes (guaranteed by `write_token`, which writes the `k` placeholder bytes
immediately after recording the relocation). -/
def relocsInBounds (k : Nat) (blocks : List HeapBlock) : Prop :=
  ∀ b ∈ blocks, ∀ e ∈ b.relocations, e.1 + k ≤ b.writer.data.length

/-- Within each block, distinct relocations have non-overlapping
placeholder windows. -/
def relocsDisjoint (k : Nat) (blocks : List HeapBlock) : Prop :=
  ∀ b ∈ blocks, b.relocations.Pairwise fun e1 e2 => winDisj k e1.1 e2.1

theorem winDisj_symm {k p q : Nat} (h : winDisj k p q) : winDisj k q p :=
  h.symm

theorem applyPatch_pos (d : WriteDomain) (s : Nat) (w : Cursor) (e : Nat × HeapToken) :
    (applyPatch d s w e).pos = w.pos := rfl

theorem applyPatch_data (d : WriteDomain) (s : Nat) (w : Cursor) (e : Nat × HeapToken)
    (hin : e.1 + (d.applyReference e.1 (s + e.2.offset)).length ≤ w.data.length) :
    (applyPatch d s w e).data
      = w.data.take e.1 ++ d.applyReference e.1 (s + e.2.offset)
          ++ w.data.drop (e.1 + (d.applyReference e.1 (s + e.2.offset)).length) := by
  unfold applyPatch
  rw [show (w.setPos e.1) = (⟨w.data, e.1⟩ : Cursor) from rfl,
    Cursor.writeAll_inside ⟨w.data, e.1⟩ _ hin]
  rfl

theorem applyPatch_length (d : WriteDomain) (s : Nat) (w : Cursor) (e : Nat × HeapToken)
    (hin : e.1 + (d.applyReference e.1 (s + e.2.offset)).length ≤ w.data.length) :
    (applyPatch d s w e).data.length = w.data.length := by
  rw [applyPatch_data d s w e hin]
  simp
  omega

/-- The window at the patched placeholder holds exactly the driver's
encoding. -/
theorem sliceAt_applyPatch_self (d : WriteDomain) (s : Nat) (w : Cursor)
    (e : Nat × HeapToken) (k : Nat)
    (hk : (d.applyReference e.1 (s + e.2.offset)).length = k)
    (hin : e.1 + k ≤ w.data.length) :
    sliceAt (applyPatch d s w e).data e.1 k = d.applyReference e.1 (s + e.2.offset) := by
  rw [sliceAt, applyPatch_data d s w e (by rw [hk]; exact hin), List.append_assoc,
    List.drop_left' (by
      rw [List.length_take]
      exact Nat.min_eq_left (by omega)),
    List.take_left' hk]

/-- A patch leaves any disjoint window unchanged. -/
theorem sliceAt_applyPatch_disj (d : WriteDomain) (s : Nat) (w : Cursor)
    (e : Nat × HeapToken) (k P : Nat)
    (hk : (d.applyReference e.1 (s + e.2.offset)).length = k)
    (hin : e.1 + k ≤ w.data.length)
    (hd : winDisj k P e.1) :
    sliceAt (applyPatch d s w e).data P k = sliceAt w.data P k := by
  rw [sliceAt, sliceAt, applyPatch_data d s w e (by rw [hk]; exact hin)]
  rcases hd with hbefore | hafter
  · -- window entirely before the patch
    have he1 : e.1 ≤ w.data.length := by omega
    have hlen1 : (w.data.take e.1).length = e.1 := by
      rw [List.length_take]
      exact Nat.min_eq_left he1
    rw [List.append_assoc,
      List.drop_append_of_le_length (by rw [hlen1]; omega),
      List.take_append_of_le_length (by
        rw [List.length_drop, hlen1]
        omega),
      List.drop_take]
    rw [List.take_take, Nat.min_eq_left (by omega)]
  · -- window entirely after the patch
    have hfront : ((w.data.take e.1 ++ d.applyReference e.1 (s + e.2.offset))).length
        = e.1 + k := by
      rw [List.length_append, List.length_take, hk, Nat.min_eq_left (by omega)]
    rw [List.append_assoc]
    have hsplit : (w.data.take e.1 ++ (d.applyReference e.1 (s + e.2.offset)
        ++ w.data.drop (e.1 + k))) = ((w.data.take e.1
          ++ d.applyReference e.1 (s + e.2.offset)) ++ w.data.drop (e.1 + k)) := by
      rw [List.append_assoc]
    rw [hk, hsplit]
    have h1 : ((w.data.take e.1 ++ d.applyReference e.1 (s + e.2.offset))
        ++ w.data.drop (e.1 + k)).drop P
        = (w.data.drop (e.1 + k)).drop (P - (e.1 + k)) := by
      have hP : P = ((w.data.take e.1 ++ d.applyReference e.1 (s + e.2.offset))).length
          + (P - (e.1 + k)) := by
        rw [hfront]
        omega
      conv_lhs => rw [hP, ← List.drop_drop]
      rw [List.drop_left]
    have h2 : w.data.drop P = (w.data.drop (e.1 + k)).drop (P - (e.1 + k)) := by
      rw [List.drop_drop]
      congr 1
      omega
    rw [h1, h2]

/-- Appending bytes beyond a window leaves the window unchanged. -/
theorem sliceAt_append (l m : List Byte) (P k : Nat) (h : P + k ≤ l.length) :
    sliceAt (l ++ m) P k = sliceAt l P k := by
  rw [sliceAt, sliceAt, List.drop_append_of_le_length (by omega),
    List.take_append_of_le_length (by
      rw [List.length_drop]
      omega)]

theorem foldl_applyPatch_pos (d : WriteDomain) (s : Nat) :
    ∀ (es : List (Nat × HeapToken)) (w : Cursor),
      (es.foldl (applyPatch d s) w).pos = w.pos := by
  intro es
  induction es with
  | nil => intro w; rfl
  | cons e es ih =>
    intro w
    rw [List.foldl_cons, ih, applyPatch_pos]

theorem foldl_applyPatch_length (d : WriteDomain) (s k : Nat)
    (henc : ∀ p o, (d.applyReference p o).length = k) :
    ∀ (es : List (Nat × HeapToken)) (w : Cursor),
      (∀ e ∈ es, e.1 + k ≤ w.data.length) →
      (es.foldl (applyPatch d s) w).data.length = w.data.length := by
  intro es
  induction es with
  | nil => intro w _; rfl
  | cons e es ih =>
    intro w hin
    have he : e.1 + k ≤ w.data.length := hin e (List.mem_cons_self e es)
    have hlen : (applyPatch d s w e).data.length = w.data.length :=
      applyPatch_length d s w e (by rw [henc]; exact he)
    rw [List.foldl_cons, ih (applyPatch d s w e) (by
      intro e' he'
      rw [hlen]
      exact hin e' (List.mem_cons_of_mem e he')), hlen]

theorem foldl_applyPatch_slice_disj (d : WriteDomain) (s k P : Nat)
    (henc : ∀ p o, (d.applyReference p o).length = k) :
    ∀ (es : List (Nat × HeapToken)) (w : Cursor),
      (∀ e ∈ es, e.1 + k ≤ w.data.length) →
      (∀ e ∈ es, winDisj k P e.1) →
      sliceAt (es.foldl (applyPatch d s) w).data P k = sliceAt w.data P k := by
  intro es
  induction es with
  | nil => intro w _ _; rfl
  | cons e es ih =>
    intro w hin hdis
    have he : e.1 + k ≤ w.data.length := hin e (List.mem_cons_self e es)
    have hlen : (applyPatch d s w e).data.length = w.data.length :=
      applyPatch_length d s w e (by rw [henc]; exact he)
    rw [List.foldl_cons,
      ih (applyPatch d s w e)
        (by
          intro e' he'
          rw [hlen]
          exact hin e' (List.mem_cons_of_mem e he'))
        (fun e' he' => hdis e' (List.mem_cons_of_mem e he')),
      sliceAt_applyPatch_disj d s w e k P (henc _ _) he
        (hdis e (List.mem_cons_self e es))]

/-- After the patch loop, the window of an applied relocation holds the
driver's encoding, provided (as `write_token` guarantees) the windows of
the remaining patches do not overlap it. -/
theorem foldl_applyPatch_slice_hit (d : WriteDomain) (s k P : Nat) (t : HeapToken)
    (henc : ∀ p o, (d.applyReference p o).length = k) :
    ∀ (es₁ es₂ : List (Nat × HeapToken)) (w : Cursor),
      (∀ e ∈ es₁ ++ (P, t) :: es₂, e.1 + k ≤ w.data.length) →
      (∀ e ∈ es₂, winDisj k P e.1) →
      sliceAt ((es₁ ++ (P, t) :: es₂).foldl (applyPatch d s) w).data P k
        = d.applyReference P (s + t.offset) := by
  intro es₁
  induction es₁ with
  | nil =>
    intro es₂ w hin hdis
    rw [List.nil_append, List.foldl_cons]
    have hP : P + k ≤ w.data.length := hin (P, t) (List.mem_cons_self _ _)
    have hlen : (applyPatch d s w (P, t)).data.length = w.data.length :=
      applyPatch_length d s w (P, t) (by rw [henc]; exact hP)
    rw [foldl_applyPatch_slice_disj d s k P henc es₂ (applyPatch d s w (P, t))
        (by
          intro e' he'
          rw [hlen]
          exact hin e' (List.mem_cons_of_mem _ he'))
        hdis,
      sliceAt_applyPatch_self d s w (P, t) k (henc _ _) hP]
  | cons e es₁ ih =>
    intro es₂ w hin hdis
    have he : e.1 + k ≤ w.data.length := hin e (List.mem_cons_self _ _)
    have hlen : (applyPatch d s w e).data.length = w.data.length :=
      applyPatch_length d s w e (by rw [henc]; exact he)
    rw [List.cons_append, List.foldl_cons]
    exact ih es₂ (applyPatch d s w e)
      (by
        intro e' he'
        rw [hlen]
        exact hin e' (List.mem_cons_of_mem _ he'))
      hdis

theorem toWriterGo_nil (d : WriteDomain) (n : Nat) (w : Cursor) (offs : List Nat)
    (pend : List (Nat × HeapToken)) :
    toWriterGo d [] n w offs pend = (w, offs, pend) := rfl

theorem toWriterGo_cons (d : WriteDomain) (b : HeapBlock) (rest : List HeapBlock)
    (n : Nat) (w : Cursor) (offs : List Nat) (pend : List (Nat × HeapToken)) :
    toWriterGo d (b :: rest) n w offs pend
      = toWriterGo d rest (n + 1) (toWriterStep d n b w offs pend).1
          (toWriterStep d n b w offs pend).2.1 (toWriterStep d n b w offs pend).2.2 := rfl

theorem toWriterStep_eq (d : WriteDomain) (blockId : Nat) (b : HeapBlock)
    (w : Cursor) (offs : List Nat) (pend : List (Nat × HeapToken)) :
    toWriterStep d blockId b w offs pend
      = ((pend.filter fun e => e.2.blockId = blockId).foldl (applyPatch d w.pos)
            (w.writeAll b.writer.data),
         offs ++ [w.pos],
         (pend.filter fun e => ¬ e.2.blockId = blockId)
           ++ b.relocations.map fun r => (w.pos + r.1, r.2)) := rfl

/-- One `to_writer` iteration preserves the loop invariant: the cursor
stays parked at the end of the data, the data grows by exactly the block's
bytes, the offsets list gains the block start, and every pending
placeholder window stays inside the data. -/
theorem toWriterStep_inv (d : WriteDomain) (k : Nat)
    (henc : ∀ p o, (d.applyReference p o).length = k)
    (blockId : Nat) (b : HeapBlock) (w : Cursor) (offs : List Nat)
    (pend : List (Nat × HeapToken))
    (hw : w.pos = w.data.length)
    (hpend : ∀ e ∈ pend, e.1 + k ≤ w.data.length)
    (hb : ∀ e ∈ b.relocations, e.1 + k ≤ b.writer.data.length) :
    (toWriterStep d blockId b w offs pend).1.pos
        = (toWriterStep d blockId b w offs pend).1.data.length
    ∧ (toWriterStep d blockId b w offs pend).1.data.length
        = w.data.length + b.writer.data.length
    ∧ (toWriterStep d blockId b w offs pend).2.1 = offs ++ [w.pos]
    ∧ (∀ e ∈ (toWriterStep d blockId b w offs pend).2.2,
        e.1 + k ≤ (toWriterStep d blockId b w offs pend).1.data.length) := by
  rw [toWriterStep_eq]
  have hwa : w.writeAll b.writer.data
      = ⟨w.data ++ b.writer.data, w.pos + b.writer.data.length⟩ :=
    Cursor.writeAll_at_end w _ hw
  have hinw' : ∀ e ∈ pend.filter (fun e => e.2.blockId = blockId),
      e.1 + k ≤ (w.writeAll b.writer.data).data.length := by
    intro e he
    rw [hwa]
    simp only [List.length_append]
    have := hpend e (List.mem_filter.mp he).1
    omega
  have hlen : ((pend.filter fun e => e.2.blockId = blockId).foldl (applyPatch d w.pos)
      (w.writeAll b.writer.data)).data.length
      = w.data.length + b.writer.data.length := by
    rw [foldl_applyPatch_length d w.pos k henc _ _ hinw', hwa]
    simp
  refine ⟨?_, hlen, rfl, ?_⟩
  · rw [foldl_applyPatch_pos, hlen, hwa, hw]
  · intro e he
    rw [hlen]
    rcases List.mem_append.mp he with h1 | h2
    · have := hpend e (List.mem_filter.mp h1).1
      omega
    · rcases List.mem_map.mp h2 with ⟨r, hr, hre⟩
      have := hb r hr
      rw [← hre, hw]
      simp only []
      omega

/-- The block-offsets list produced by the loop is the accumulated list
plus the absolute block starts. -/
theorem toWriterGo_offsets (d : WriteDomain) (k : Nat)
    (henc : ∀ p o, (d.applyReference p o).length = k) :
    ∀ (blocks : List HeapBlock) (n : Nat) (w : Cursor) (offs : List Nat)
      (pend : List (Nat × HeapToken)),
      w.pos = w.data.length →
      (∀ e ∈ pend, e.1 + k ≤ w.data.length) →
      (∀ b ∈ blocks, ∀ e ∈ b.relocations, e.1 + k ≤ b.writer.data.length) →
      (toWriterGo d blocks n w offs pend).2.1 = offs ++ blockStarts w.pos blocks := by
  intro blocks
  induction blocks with
  | nil =>
    intro n w offs pend _ _ _
    simp [toWriterGo_nil, blockStarts]
  | cons b rest ih =>
    intro n w offs pend hw hpend hblocks
    obtain ⟨hpos', hlen', hoffs', hpend'⟩ :=
      toWriterStep_inv d k henc n b w offs pend hw hpend
        (hblocks b (List.mem_cons_self b rest))
    rw [toWriterGo_cons,
      ih (n + 1) _ _ _ hpos' hpend'
        (fun b' hb' => hblocks b' (List.mem_cons_of_mem b hb')),
      hoffs', hpos', hlen', blockStarts]
    rw [hw]
    simp

/-- Processing further blocks never touches a window that is already
inside the emitted data and disjoint from every pending placeholder. -/
theorem toWriterGo_slice_preserved (d : WriteDomain) (k P : Nat)
    (henc : ∀ p o, (d.applyReference p o).length = k) :
    ∀ (blocks : List HeapBlock) (n : Nat) (w : Cursor) (offs : List Nat)
      (pend : List (Nat × HeapToken)),
      w.pos = w.data.length →
      (∀ e ∈ pend, e.1 + k ≤ w.data.length) →
      (∀ b ∈ blocks, ∀ e ∈ b.relocations, e.1 + k ≤ b.writer.data.length) →
      P + k ≤ w.data.length →
      (∀ e ∈ pend, winDisj k P e.1) →
      sliceAt (toWriterGo d blocks n w offs pend).1.data P k = sliceAt w.data P k := by
  intro blocks
  induction blocks with
  | nil =>
    intro n w offs pend _ _ _ _ _
    rfl
  | cons b rest ih =>
    intro n w offs pend hw hpend hblocks hreg hdis
    obtain ⟨hpos', hlen', _, hpend'⟩ :=
      toWriterStep_inv d k henc n b w offs pend hw hpend
        (hblocks b (List.mem_cons_self b rest))
    have hstep : sliceAt (toWriterStep d n b w offs pend).1.data P k
        = sliceAt w.data P k := by
      rw [toWriterStep_eq]
      have hwa : w.writeAll b.writer.data
          = ⟨w.data ++ b.writer.data, w.pos + b.writer.data.length⟩ :=
        Cursor.writeAll_at_end w _ hw
      rw [foldl_applyPatch_slice_disj d w.pos k P henc _ _
          (by
            intro e he
            rw [hwa]
            simp only [List.length_append]
            have := hpend e (List.mem_filter.mp he).1
            omega)
          (fun e he => hdis e (List.mem_filter.mp he).1),
        hwa]
      exact sliceAt_append w.data b.writer.data P k hreg
    rw [toWriterGo_cons,
      ih (n + 1) _ _ _ hpos' hpend'
        (fun b' hb' => hblocks b' (List.mem_cons_of_mem b hb'))
        (by rw [hlen']; omega)
        ?hdis',
      hstep]
    case hdis' =>
      intro e he
      rw [toWriterStep_eq] at he
      rcases List.mem_append.mp he with h1 | h2
      · exact hdis e (List.mem_filter.mp h1).1
      · rcases List.mem_map.mp h2 with ⟨r, _, hre⟩
        left
        rw [← hre]
        simp only []
        omega

theorem blockStarts_nil (base : Nat) : blockStarts base [] = [] := rfl

theorem blockStarts_cons (base : Nat) (b : HeapBlock) (rest : List HeapBlock) :
    blockStarts base (b :: rest)
      = base :: blockStarts (base + b.writer.data.length) rest := rfl

/-- If a pending entry `(P, t)` targets one of the remaining blocks, the
loop patches its window with the driver's encoding of that block's start
plus the token's local offset. -/
theorem toWriterGo_slice_hit (d : WriteDomain) (k P : Nat) (t : HeapToken)
    (henc : ∀ p o, (d.applyReference p o).length = k) :
    ∀ (blocks : List HeapBlock) (n : Nat) (w : Cursor) (offs : List Nat)
      (pend : List (Nat × HeapToken)),
      w.pos = w.data.length →
      (∀ e ∈ pend, e.1 + k ≤ w.data.length) →
      pend.Pairwise (fun e1 e2 => winDisj k e1.1 e2.1) →
      (∀ b ∈ blocks, ∀ e ∈ b.relocations, e.1 + k ≤ b.writer.data.length) →
      (∀ b ∈ blocks, b.relocations.Pairwise fun e1 e2 => winDisj k e1.1 e2.1) →
      (P, t) ∈ pend →
      n ≤ t.blockId →
      t.blockId < n + blocks.length →
      sliceAt (toWriterGo d blocks n w offs pend).1.data P k
        = d.applyReference P ((blockStarts w.pos blocks).getD (t.blockId - n) 0 + t.offset) := by
  intro blocks
  induction blocks with
  | nil =>
    intro n w offs pend _ _ _ _ _ _ hge hlt
    exact absurd hlt (by simp; omega)
  | cons b rest ih =>
    intro n w offs pend hw hpend hpair hblocks hbpair hmem hge hlt
    obtain ⟨hpos', hlen', _, hpend'⟩ :=
      toWriterStep_inv d k henc n b w offs pend hw hpend
        (hblocks b (List.mem_cons_self b rest))
    have hwa : w.writeAll b.writer.data
        = ⟨w.data ++ b.writer.data, w.pos + b.writer.data.length⟩ :=
      Cursor.writeAll_at_end w _ hw
    have hP : P + k ≤ w.data.length := hpend (P, t) hmem
    by_cases hbid : t.blockId = n
    · -- the entry is extracted and patched at this block
      have hextr_mem : (P, t) ∈ pend.filter (fun e => e.2.blockId = n) :=
        List.mem_filter.mpr ⟨hmem, by simp [hbid]⟩
      obtain ⟨es₁, es₂, hsplit⟩ := List.append_of_mem hextr_mem
      have hextr_pair :
          (pend.filter (fun e => e.2.blockId = n)).Pairwise
            (fun e1 e2 => winDisj k e1.1 e2.1) :=
        List.Pairwise.sublist (List.filter_sublist _) hpair
      have hes₂ : ∀ e ∈ es₂, winDisj k P e.1 := by
        rw [hsplit] at hextr_pair
        have hc := (List.pairwise_append.mp hextr_pair).2.1
        exact fun e he => (List.pairwise_cons.mp hc).1 e he
      have hinw' : ∀ e ∈ pend.filter (fun e => e.2.blockId = n),
          e.1 + k ≤ (w.writeAll b.writer.data).data.length := by
        intro e he
        rw [hwa]
        simp only [List.length_append]
        have := hpend e (List.mem_filter.mp he).1
        omega
      have hstep : sliceAt (toWriterStep d n b w offs pend).1.data P k
          = d.applyReference P (w.pos + t.offset) := by
        rw [toWriterStep_eq]
        show sliceAt ((pend.filter fun e => e.2.blockId = n).foldl
          (applyPatch d w.pos) (w.writeAll b.writer.data)).data P k = _
        rw [hsplit]
        exact foldl_applyPatch_slice_hit d w.pos k P t henc es₁ es₂
          (w.writeAll b.writer.data) (hsplit ▸ hinw') hes₂
      have hdis' : ∀ e ∈ (toWriterStep d n b w offs pend).2.2, winDisj k P e.1 := by
        rw [toWriterStep_eq]
        intro e he
        rcases List.mem_append.mp he with h1 | h2
        · obtain ⟨hep, hne⟩ := List.mem_filter.mp h1
          obtain ⟨l₁, l₂, hpd⟩ := List.append_of_mem hmem
          rw [hpd] at hpair
          rw [hpd] at hep
          rcases List.mem_append.mp hep with hl1 | hl2
          · exact winDisj_symm
              ((List.pairwise_append.mp hpair).2.2 e hl1 (P, t) (List.mem_cons_self _ _))
          · rcases List.mem_cons.mp hl2 with heq | hl2'
            · exfalso
              rw [heq] at hne
              simp [hbid] at hne
            · exact (List.pairwise_cons.mp (List.pairwise_append.mp hpair).2.1).1 e hl2'
        · rcases List.mem_map.mp h2 with ⟨r, _, hre⟩
          left
          rw [← hre]
          simp only []
          omega
      rw [toWriterGo_cons,
        toWriterGo_slice_preserved d k P henc rest (n + 1) _ _ _ hpos' hpend'
          (fun b' hb' => hblocks b' (List.mem_cons_of_mem b hb'))
          (by rw [hlen']; omega) hdis',
        hstep, blockStarts_cons, hbid, Nat.sub_self, List.getD_cons_zero]
    · -- the entry stays pending; recurse on the remaining blocks
      have hgt : n < t.blockId := by omega
      have hmem' : (P, t) ∈ (toWriterStep d n b w offs pend).2.2 := by
        rw [toWriterStep_eq]
        exact List.mem_append_left _ (List.mem_filter.mpr ⟨hmem, by simp [hbid]⟩)
      have hpair' : ((toWriterStep d n b w offs pend).2.2).Pairwise
          (fun e1 e2 => winDisj k e1.1 e2.1) := by
        rw [toWriterStep_eq]
        refine List.pairwise_append.mpr
          ⟨List.Pairwise.sublist (List.filter_sublist _) hpair, ?_, ?_⟩
        · rw [List.pairwise_map]
          refine (hbpair b (List.mem_cons_self b rest)).imp ?_
          intro e1 e2 h
          rcases h with h | h
          · left
            simp only []
            omega
          · right
            simp only []
            omega
        · intro a ha e he
          rcases List.mem_map.mp he with ⟨r, _, hre⟩
          left
          rw [← hre]
          simp only []
          have := hpend a (List.mem_filter.mp ha).1
          omega
      have hrec := ih (n + 1) (toWriterStep d n b w offs pend).1
        (toWriterStep d n b w offs pend).2.1 (toWriterStep d n b w offs pend).2.2
        hpos' hpend' hpair'
        (fun b' hb' => hblocks b' (List.mem_cons_of_mem b hb'))
        (fun b' hb' => hbpair b' (List.mem_cons_of_mem b hb'))
        hmem' (by omega)
        (by
          simp only [List.length_cons] at hlt
          omega)
      rw [toWriterGo_cons, hrec]
      have hpos2 : (toWriterStep d n b w offs pend).1.pos
          = w.pos + b.writer.data.length := by
        rw [hpos', hlen', hw]
      rw [hpos2, blockStarts_cons]
      have hidx : t.blockId - n = (t.blockId - (n + 1)) + 1 := by omega
      rw [hidx, List.getD_cons_succ]

/-- The pending list after a step stays pairwise disjoint: surviving
entries were pairwise disjoint, the new block's windows are pairwise
disjoint among themselves, and they live beyond the already-emitted data. -/
theorem toWriterStep_pend_pairwise (d : WriteDomain) (k : Nat) (blockId : Nat)
    (b : HeapBlock) (w : Cursor) (offs : List Nat) (pend : List (Nat × HeapToken))
    (hw : w.pos = w.data.length)
    (hpend : ∀ e ∈ pend, e.1 + k ≤ w.data.length)
    (hpair : pend.Pairwise fun e1 e2 => winDisj k e1.1 e2.1)
    (hbp : b.relocations.Pairwise fun e1 e2 => winDisj k e1.1 e2.1) :
    ((toWriterStep d blockId b w offs pend).2.2).Pairwise
      (fun e1 e2 => winDisj k e1.1 e2.1) := by
  rw [toWriterStep_eq]
  refine List.pairwise_append.mpr
    ⟨List.Pairwise.sublist (List.filter_sublist _) hpair, ?_, ?_⟩
  · rw [List.pairwise_map]
    refine hbp.imp ?_
    intro e1 e2 h
    rcases h with h | h
    · left
      simp only []
      omega
    · right
      simp only []
      omega
  · intro a ha e he
    rcases List.mem_map.mp he with ⟨r, _, hre⟩
    left
    rw [← hre]
    simp only []
    have := hpend a (List.mem_filter.mp ha).1
    omega

/-- A relocation sitting in block `i` of the block list, whose token
targets a strictly later block, ends up patched in the final output: the
window at `start(i) + local_offset` holds the driver's encoding of
`start(target) + token.offset`. -/
theorem toWriterGo_reloc_applied (d : WriteDomain) (k : Nat) (t : HeapToken) (L : Nat)
    (henc : ∀ p o, (d.applyReference p o).length = k) :
    ∀ (blocks : List HeapBlock) (n : Nat) (w : Cursor) (offs : List Nat)
      (pend : List (Nat × HeapToken)) (i : Nat) (bi : HeapBlock),
      w.pos = w.data.length →
      (∀ e ∈ pend, e.1 + k ≤ w.data.length) →
      pend.Pairwise (fun e1 e2 => winDisj k e1.1 e2.1) →
      (∀ b ∈ blocks, ∀ e ∈ b.relocations, e.1 + k ≤ b.writer.data.length) →
      (∀ b ∈ blocks, b.relocations.Pairwise fun e1 e2 => winDisj k e1.1 e2.1) →
      blocks[i]? = some bi →
      (L, t) ∈ bi.relocations →
      n + i < t.blockId →
      t.blockId < n + blocks.length →
      sliceAt (toWriterGo d blocks n w offs pend).1.data
          ((blockStarts w.pos blocks).getD i 0 + L) k
        = d.applyReference ((blockStarts w.pos blocks).getD i 0 + L)
            ((blockStarts w.pos blocks).getD (t.blockId - n) 0 + t.offset) := by
  intro blocks
  induction blocks with
  | nil =>
    intro n w offs pend i bi _ _ _ _ _ hbi _ _ _
    simp at hbi
  | cons b rest ih =>
    intro n w offs pend i bi hw hpend hpair hblocks hbpair hbi hmem hfwd hlt
    obtain ⟨hpos', hlen', _, hpend'⟩ :=
      toWriterStep_inv d k henc n b w offs pend hw hpend
        (hblocks b (List.mem_cons_self b rest))
    have hpair' := toWriterStep_pend_pairwise d k n b w offs pend hw hpend hpair
      (hbpair b (List.mem_cons_self b rest))
    have hpos2 : (toWriterStep d n b w offs pend).1.pos
        = w.pos + b.writer.data.length := by
      rw [hpos', hlen', hw]
    cases i with
    | zero =>
      have hb_bi : b = bi := by
        simpa using hbi
      subst hb_bi
      have hmem' : (w.pos + L, t) ∈ (toWriterStep d n b w offs pend).2.2 := by
        rw [toWriterStep_eq]
        exact List.mem_append_right _ (List.mem_map.mpr ⟨(L, t), hmem, rfl⟩)
      have hrec := toWriterGo_slice_hit d k (w.pos + L) t henc rest (n + 1)
        (toWriterStep d n b w offs pend).1 (toWriterStep d n b w offs pend).2.1
        (toWriterStep d n b w offs pend).2.2
        hpos' hpend' hpair'
        (fun b' hb' => hblocks b' (List.mem_cons_of_mem b hb'))
        (fun b' hb' => hbpair b' (List.mem_cons_of_mem b hb'))
        hmem' (by omega)
        (by
          simp only [List.length_cons] at hlt
          omega)
      rw [hpos2] at hrec
      have hidx : t.blockId - n = (t.blockId - (n + 1)) + 1 := by omega
      rw [toWriterGo_cons, blockStarts_cons, List.getD_cons_zero, hrec, hidx,
        List.getD_cons_succ]
    | succ i =>
      have hbi' : rest[i]? = some bi := by
        simpa using hbi
      have hrec := ih (n + 1) (toWriterStep d n b w offs pend).1
        (toWriterStep d n b w offs pend).2.1 (toWriterStep d n b w offs pend).2.2
        i bi hpos' hpend' hpair'
        (fun b' hb' => hblocks b' (List.mem_cons_of_mem b hb'))
        (fun b' hb' => hbpair b' (List.mem_cons_of_mem b hb'))
        hbi' hmem (by omega)
        (by
          simp only [List.length_cons] at hlt
          omega)
      rw [hpos2] at hrec
      have hidx : t.blockId - n = (t.blockId - (n + 1)) + 1 := by omega
      rw [toWriterGo_cons, blockStarts_cons, List.getD_cons_succ, hrec, hidx,
        List.getD_cons_succ]

/-!
`WriteCtxImpl` and its `IndexMap<C, WriteHeap>` of categorised heaps.
The map is modelled as an insertion-ordered association list, mirroring
`indexmap::IndexMap` (`insert` replaces in place, `remove` is a swap-remove,
`get_index_of` is the position in insertion order).
-/

section Ctx

variable {C : Type} [LinearOrder C] [Inhabited C]

/-- `IndexMap::insert`: replace the value at the key's existing position,
or append a new entry at the end. -/
def indexInsert (m : List (C × WriteHeap)) (k : C) (v : WriteHeap) : List (C × WriteHeap) :=
  if m.any (fun e => e.1 = k) then
    m.map fun e => if e.1 = k then (k, v) else e
  else
    m ++ [(k, v)]

/-- `IndexMap::entry(k).or_default()`: append a default heap when absent. -/
def entryOrDefault (m : List (C × WriteHeap)) (k : C) : List (C × WriteHeap) :=
  if m.any (fun e => e.1 = k) then m else m ++ [(k, WriteHeap.new)]

/-- `IndexMap::get_index_of`. -/
def getIndexOf (m : List (C × WriteHeap)) (k : C) : Nat :=
  m.findIdx fun e => e.1 = k

/-- `IndexMap::remove` (an alias of `swap_remove`): replace the entry with
the last entry and pop; returns the removed value when present. -/
def swapRemove (m : List (C × WriteHeap)) (k : C) : List (C × WriteHeap) × Option WriteHeap :=
  match m.findIdx? (fun e => e.1 = k) with
  | none => (m, none)
  | some i =>
    if i + 1 = m.length then
      (m.dropLast, m[i]?.map (·.2))
    else
      match m.getLast? with
      | none => ([], m[i]?.map (·.2))
      | some last => (m.dropLast.set i last, m[i]?.map (·.2))

/-- `WriteCtxImpl` of `lib.rs`: the default heap plus the categorised map. -/
structure WriteCtxImpl (C : Type) where
  defaultHeap : WriteHeap
  heaps : List (C × WriteHeap)
deriving DecidableEq

/-- `WriteCtxImpl::new`. -/
def WriteCtxImpl.new : WriteCtxImpl C :=
  ⟨WriteHeap.new, []⟩

/-- `WriteCtxImpl::heap` (returning the default heap or the map entry; a
missing entry is exposed as a fresh heap, matching what `heap_mut` would
create). -/
def WriteCtxImpl.heapFor (ctx : WriteCtxImpl C) (cat : C) : WriteHeap :=
  if cat = (default : C) then ctx.defaultHeap
  else ((ctx.heaps.find? fun e => e.1 = cat).map (·.2)).getD WriteHeap.new

/-- `WriteCtxImpl::heap_id_of`: force the category into the map, then return
its insertion index. -/
def WriteCtxImpl.heapIdOf (ctx : WriteCtxImpl C) (cat : C) : WriteCtxImpl C × Nat :=
  let heaps := entryOrDefault ctx.heaps cat
  ({ ctx with heaps := heaps }, getIndexOf heaps cat)

/-- `WriteCtxImpl::remove_heap`: `mem::take` of the default heap, or a map
`remove` (swap-remove) with `unwrap_or_default`. -/
def WriteCtxImpl.removeHeap (ctx : WriteCtxImpl C) (cat : C) : WriteCtxImpl C × WriteHeap :=
  if cat = (default : C) then
    ({ ctx with defaultHeap := WriteHeap.new }, ctx.defaultHeap)
  else
    let r := swapRemove ctx.heaps cat
    ({ ctx with heaps := r.1 }, r.2.getD WriteHeap.new)

/-- `WriteCtxImpl::set_heap`. -/
def WriteCtxImpl.setHeap (ctx : WriteCtxImpl C) (cat : C) (h : WriteHeap) : WriteCtxImpl C :=
  if cat = (default : C) then { ctx with defaultHeap := h }
  else { ctx with heaps := indexInsert ctx.heaps cat h }

/-- A write through the context's `Deref` to the default heap
(`ctx.cur_writer().write_all(..)`). -/
def WriteCtxImpl.curWrite (ctx : WriteCtxImpl C) (bs : List Byte) : WriteCtxImpl C :=
  { ctx with defaultHeap := ctx.defaultHeap.curWrite bs }

/-- `ctx.write_token::<BYTE_SIZE>(token)` through the `Deref` to the
default heap. -/
def WriteCtxImpl.writeToken (ctx : WriteCtxImpl C) (byteSize : Nat) (t : HeapToken) :
    WriteCtxImpl C :=
  { ctx with defaultHeap := ctx.defaultHeap.writeToken byteSize t }

/-- The view a callback receives inside `allocate_next_block`: the inner
context's default heap (the heap borrowed out of the parent) plus the
remaining parent context. -/
structure InnerState (C : Type) where
  innerHeap : WriteHeap
  parent : WriteCtxImpl C

/-- `WriteCtxImpl::allocate_next_block_aligned` (and, with alignment 0,
`allocate_next_block`): resolve the heap id, borrow the heap out of the
parent (`InnerWriteCtx::new`), save `current_block`, seek to a new block,
run the callback, and restore `current_block` *only on the success path*
before the inner context's `Drop` reinstalls the heap.  On the error path
the `?` operator returns before the restore, and `Drop` reinstalls the heap
as the callback left it.  The callback is an arbitrary state transformer
returning a result together with the mutated state, as a Rust `FnOnce`
mutating through `&mut` does.  The outer `none` models an `align_to` panic
inside `seek_to_new_block`. -/
def WriteCtxImpl.allocateNextBlockAligned {E : Type} (ctx : WriteCtxImpl C)
    (category : Option C) (alignment : Nat)
    (cb : InnerState C → Except E Unit × InnerState C) :
    Option (Except E HeapToken × WriteCtxImpl C) :=
  let cat := category.getD (default : C)
  let p := ctx.heapIdOf cat
  let r := p.1.removeHeap cat
  let prev := r.2.currentBlock
  match r.2.seekToNewBlock alignment p.2 with
  | none => none
  | some (h, tok) =>
    let s := cb ⟨h, r.1⟩
    match s.1 with
    | .ok _ =>
      some (.ok tok, s.2.parent.setHeap cat { s.2.innerHeap with currentBlock := prev })
    | .error e =>
      some (.error e, s.2.parent.setHeap cat s.2.innerHeap)

/-- `WriteCtxImpl::allocate_next_block` (seeks with alignment 0). -/
def WriteCtxImpl.allocateNextBlock {E : Type} (ctx : WriteCtxImpl C)
    (category : Option C) (cb : InnerState C → Except E Unit × InnerState C) :
    Option (Except E HeapToken × WriteCtxImpl C) :=
  ctx.allocateNextBlockAligned category 0 cb

/-- The heap sequence assembled by `to_buffer`: insert the default heap
under the default category, then stable-sort by category
(`heaps.sort_by_key`; Rust's stable sort is modelled by the stable
`insertionSort`). -/
def WriteCtxImpl.sortedHeaps (ctx : WriteCtxImpl C) : List (C × WriteHeap) :=
  (indexInsert ctx.heaps (default : C) ctx.defaultHeap).insertionSort
    fun a b => a.1 ≤ b.1

/-- `WriteCtxImpl::to_buffer`, instrumented: returns the final output
cursor, the block-offsets list, and the per-heap leftover pending
relocation lists (which the Rust code silently discards: each call to
`to_writer` starts a fresh `all_relocations` list and never checks it at
return). -/
def WriteCtxImpl.toBufferFull (ctx : WriteCtxImpl C) (d : WriteDomain) :
    Cursor × List Nat × List (List (Nat × HeapToken)) :=
  (ctx.sortedHeaps).foldl
    (fun acc e =>
      let r := e.2.toWriter acc.1 d acc.2.1
      (r.1, r.2.1, acc.2.2 ++ [r.2.2]))
    (⟨[], 0⟩, [], [])

/-- `WriteCtxImpl::to_buffer`: the returned byte vector. -/
def WriteCtxImpl.toBuffer (ctx : WriteCtxImpl C) (d : WriteDomain) : List Byte :=
  (ctx.toBufferFull d).1.data

/-- The block-offsets list filled in by `to_buffer` when requested. -/
def WriteCtxImpl.toBufferOffsets (ctx : WriteCtxImpl C) (d : WriteDomain) : List Nat :=
  (ctx.toBufferFull d).2.1

end Ctx

/-!
`SeekGuard` of `src/util.rs`: records the position on construction and
restores it in `Drop` on every exit path of the guarded region.
-/

/-- Running a guarded region under a `SeekGuard`: record `stream_position`,
run the body (which freely moves the cursor and may fail), then restore the
recorded position regardless of the body's result — exactly the
construction/`Drop` pair of `SeekGuard` together with the `?` propagation
inside the region.  On a `Cursor` the position read of `SeekGuard::new`
cannot fail, and the restoring seek of `Drop` (an `unwrap`) cannot panic. -/
def seekGuardRun {E A : Type} (s : Cursor) (body : Cursor → Except E A × Cursor) :
    Except E A × Cursor :=
  let startPos := s.pos
  let r := body s
  (r.1, r.2.setPos startPos)

/-- The pointer-chase idiom built on `SeekGuard` (`read_box_nullable`,
`read_str` in `main.rs`; `scoped_reader_pos!`): jump to a decoded pointer,
read the nested record there, and let the guard restore the outer cursor. -/
def chasePointer {E A : Type} (s : Cursor) (ptr : Nat)
    (readContent : Cursor → Except E A × Cursor) : Except E A × Cursor :=
  seekGuardRun s fun s' => readContent (s'.setPos ptr)

/-!
Primitive codecs of `src/default_impls.rs` (the `impl_rw_number` macro and
the `bool` impls): read exactly K bytes, byte-swap when the domain reports
big-endian, decode; write is the inverse.  Fixed-layout records are
sequences of such fields read/written field by field, as generated by the
derive helper.
-/

/-- `u*::to_le_bytes` restricted to `k` bytes: little-endian byte list. -/
def uBytesLE : Nat → Nat → List Byte
  | 0, _ => []
  | k + 1, n => (n % 256) :: uBytesLE k (n / 256)

/-- `u*::from_le_bytes`. -/
def uFromLE : List Byte → Nat
  | [] => 0
  | b :: bs => b + 256 * uFromLE bs

/-- Endianness-dispatched write of a `k`-byte unsigned value
(`to_le_bytes` / `to_be_bytes` under `domain.endianness()`). -/
def uWrite (little : Bool) (k n : Nat) : List Byte :=
  if little then uBytesLE k n else (uBytesLE k n).reverse

/-- Endianness-dispatched read of a `k`-byte unsigned value: read exactly
`k` bytes (`read_exact`, failing when fewer are available), then decode
with the endianness swap. -/
def uRead (little : Bool) (k : Nat) (bs : List Byte) : Option (Nat × List Byte) :=
  let hd := bs.take k
  if hd.length = k then
    some (uFromLE (if little then hd else hd.reverse), bs.drop k)
  else
    none

theorem uBytesLE_length (k n : Nat) : (uBytesLE k n).length = k := by
  induction k generalizing n with
  | zero => rfl
  | succ k ih => simp [uBytesLE, ih]

theorem uFromLE_uBytesLE (k n : Nat) : uFromLE (uBytesLE k n) = n % 256 ^ k := by
  induction k generalizing n with
  | zero => simp [uBytesLE, uFromLE, Nat.mod_one]
  | succ k ih =>
    rw [uBytesLE, uFromLE, ih, pow_succ, Nat.mul_comm (256 ^ k) 256, Nat.mod_mul]

theorem uRead_uWrite (little : Bool) (k n : Nat) (rest : List Byte) :
    uRead little k (uWrite little k n ++ rest) = some (n % 256 ^ k, rest) := by
  cases little with
  | true =>
    have hlen : (uBytesLE k n).length = k := uBytesLE_length k n
    simp [uRead, uWrite, List.take_append_of_le_length, hlen, uFromLE_uBytesLE,
      List.drop_append_of_le_length, Nat.le_of_eq hlen, List.take_append, List.drop_append]
  | false =>
    have hlen : ((uBytesLE k n).reverse).length = k := by
      simp [uBytesLE_length]
    simp [uRead, uWrite, hlen, uFromLE_uBytesLE, List.take_append, List.drop_append]

/-- The signed range bound `2^(8k-1)` used by `i8..i64`: half of `256^k`. -/
def iHalf (k : Nat) : Nat := 128 * 256 ^ (k - 1)

/-- `i*::to_le_bytes` etc.: the two's-complement bit pattern of `v`. -/
def iPattern (k : Nat) (v : Int) : Nat :=
  (v % (256 ^ k : Nat)).toNat

/-- Decoding a `k`-byte unsigned pattern as a signed value. -/
def iOfPattern (k u : Nat) : Int :=
  if u < iHalf k then (u : Int) else (u : Int) - (256 ^ k : Nat)

theorem iHalf_double (k : Nat) (hk : 0 < k) : 2 * iHalf k = 256 ^ k := by
  unfold iHalf
  have h1 : 256 ^ k = 256 ^ (k - 1 + 1) := by
    congr 1
    omega
  rw [h1, pow_succ]
  ring

theorem iOfPattern_iPattern (k : Nat) (v : Int) (hk : 0 < k)
    (hlo : -(iHalf k : Int) ≤ v) (hhi : v < (iHalf k : Int)) :
    iOfPattern k (iPattern k v) = v := by
  have hpow : (0 : Int) < (256 ^ k : Nat) := by positivity
  have hdouble : 2 * (iHalf k : Int) = ((256 ^ k : Nat) : Int) := by
    exact_mod_cast iHalf_double k hk
  rcases le_or_lt 0 v with hv | hv
  · have hmod : v % ((256 ^ k : Nat) : Int) = v := Int.emod_eq_of_lt hv (by omega)
    unfold iOfPattern iPattern
    rw [hmod]
    have hvnat : ((v.toNat : Int)) = v := Int.toNat_of_nonneg hv
    have : v.toNat < iHalf k := by omega
    simp [this, hvnat]
  · have hmod : v % ((256 ^ k : Nat) : Int) = v + ((256 ^ k : Nat) : Int) := by
      have h1 : (v + ((256 ^ k : Nat) : Int)) % ((256 ^ k : Nat) : Int)
          = v % ((256 ^ k : Nat) : Int) := by
        have h2 : v + ((256 ^ k : Nat) : Int) = v + ((256 ^ k : Nat) : Int) * 1 := by ring
        rw [h2, Int.add_mul_emod_self_left]
      rw [← h1]
      exact Int.emod_eq_of_lt (by omega) (by omega)
    unfold iOfPattern iPattern
    rw [hmod]
    have hnn : (0 : Int) ≤ v + ((256 ^ k : Nat) : Int) := by omega
    have htoNat : (((v + ((256 ^ k : Nat) : Int)).toNat : Int)) = v + ((256 ^ k : Nat) : Int) :=
      Int.toNat_of_nonneg hnn
    have hge : ¬ (v + ((256 ^ k : Nat) : Int)).toNat < iHalf k := by omega
    simp only [hge, if_false]
    omega

/-- Field layout of a fixed-layout record: the primitive types of
`default_impls.rs` (`u8..u64`, `i8..i64`, `f32`, `f64`, `bool`) and nested
records, a record being the sequence of its field layouts (`tNil`/`tCons`). -/
inductive FixedTy where
  | tU : Nat → FixedTy
  | tI : Nat → FixedTy
  | tF32 : FixedTy
  | tF64 : FixedTy
  | tBool : FixedTy
  | tNil : FixedTy
  | tCons : FixedTy → FixedTy → FixedTy
deriving DecidableEq

/-- A fixed-layout value: unsigned/signed integers carry their byte width,
floats carry their raw bit pattern (`to_le_bytes`/`from_le_bytes` on floats
transport the IEEE bit pattern unchanged), records mirror `tNil`/`tCons`. -/
inductive FixedVal where
  | vU : Nat → Nat → FixedVal
  | vI : Nat → Int → FixedVal
  | vF32 : Nat → FixedVal
  | vF64 : Nat → FixedVal
  | vBool : Bool → FixedVal
  | vNil : FixedVal
  | vCons : FixedVal → FixedVal → FixedVal
deriving DecidableEq

/-- The writer generated for a record (`SimpleWritable::to_writer_simple`
per field, fields in declaration order): integers via
`to_le_bytes`/`to_be_bytes` under the domain's endianness, `bool` as a
`u32` (`(*self as u32)`, per `default_impls.rs`). -/
def writeVal (little : Bool) : FixedVal → List Byte
  | .vU k n => uWrite little k n
  | .vI k v => uWrite little k (iPattern k v)
  | .vF32 pat => uWrite little 4 pat
  | .vF64 pat => uWrite little 8 pat
  | .vBool b => uWrite little 4 (if b then 1 else 0)
  | .vNil => []
  | .vCons f r => writeVal little f ++ writeVal little r

/-- The reader generated for a record (`from_reader_any` per field): read
exactly K bytes, swap when big-endian, decode; `bool` reads a `u32` and
tests it against zero (`BoolSize::U32` default). -/
def readVal (little : Bool) : FixedTy → List Byte → Option (FixedVal × List Byte)
  | .tU k, bs => (uRead little k bs).map fun r => (.vU k r.1, r.2)
  | .tI k, bs => (uRead little k bs).map fun r => (.vI k (iOfPattern k r.1), r.2)
  | .tF32, bs => (uRead little 4 bs).map fun r => (.vF32 r.1, r.2)
  | .tF64, bs => (uRead little 8 bs).map fun r => (.vF64 r.1, r.2)
  | .tBool, bs => (uRead little 4 bs).map fun r => (.vBool (r.1 ≠ 0), r.2)
  | .tNil, bs => some (.vNil, bs)
  | .tCons tf tr, bs => do
    let rf ← readVal little tf bs
    let rr ← readVal little tr rf.2
    some (.vCons rf.1 rr.1, rr.2)

/-- The value has the given layout. -/
def hasTy : FixedVal → FixedTy → Bool
  | .vU k _, .tU k' => k = k'
  | .vI k _, .tI k' => k = k'
  | .vF32 _, .tF32 => true
  | .vF64 _, .tF64 => true
  | .vBool _, .tBool => true
  | .vNil, .tNil => true
  | .vCons f r, .tCons tf tr => hasTy f tf && hasTy r tr
  | _, _ => false

/-- The value is representable at its declared width: the widths of
`u8..u64` / `i8..i64`, unsigned values below `256^k`, signed values within
the two's-complement range, float patterns within their word. -/
def validVal : FixedVal → Bool
  | .vU k n => (k = 1 || k = 2 || k = 4 || k = 8) && n < 256 ^ k
  | .vI k v => (k = 1 || k = 2 || k = 4 || k = 8)
      && (-(iHalf k : Int) ≤ v) && (v < (iHalf k : Int))
  | .vF32 pat => pat < 256 ^ 4
  | .vF64 pat => pat < 256 ^ 8
  | .vBool _ => true
  | .vNil => true
  | .vCons f r => validVal f && validVal r

/-- Reading back what was written recovers the value (pure codec level):
the byte stream produced for a well-typed, in-range fixed-layout value
parses back, under the same endianness, to that very value, consuming
exactly the written bytes. -/
theorem readVal_writeVal (little : Bool) (v : FixedVal) (ty : FixedTy)
    (rest : List Byte) (hty : hasTy v ty) (hval : validVal v) :
    readVal little ty (writeVal little v ++ rest) = some (v, rest) := by
  induction v generalizing ty rest with
  | vU k n =>
    cases ty <;> simp_all [hasTy, validVal, readVal, writeVal]
    subst hty
    rw [uRead_uWrite]
    simp [Nat.mod_eq_of_lt hval.2]
  | vI k v =>
    cases ty <;> simp_all [hasTy, validVal, readVal, writeVal]
    obtain ⟨⟨hk, hlo⟩, hhi⟩ := hval
    subst hty
    rw [uRead_uWrite]
    have hk0 : 0 < k := by rcases hk with h | h | h | h <;> omega
    have hpat : iPattern k v % 256 ^ k = iPattern k v := by
      apply Nat.mod_eq_of_lt
      unfold iPattern
      have h1 : v % ((256 ^ k : Nat) : Int) < ((256 ^ k : Nat) : Int) :=
        Int.emod_lt_of_pos v (by positivity)
      omega
    simp [hpat, iOfPattern_iPattern k v hk0 hlo hhi]
  | vF32 pat =>
    cases ty <;> simp_all [hasTy, validVal, readVal, writeVal]
    rw [uRead_uWrite]
    simp [Nat.mod_eq_of_lt hval]
  | vF64 pat =>
    cases ty <;> simp_all [hasTy, validVal, readVal, writeVal]
    rw [uRead_uWrite]
    simp [Nat.mod_eq_of_lt hval]
  | vBool b =>
    cases ty <;> simp_all [hasTy, validVal, readVal, writeVal]
    rw [uRead_uWrite]
    cases b <;> simp
  | vNil =>
    cases ty <;> simp_all [hasTy, validVal, readVal, writeVal]
  | vCons f r ihf ihr =>
    cases ty <;> simp_all [hasTy, validVal, readVal, writeVal, List.append_assoc]

/-!
Linking the codecs to the assembly pass: a context whose only writes went
through `cur_writer()` of the default heap assembles to exactly those bytes.
-/

/-- The context obtained from `WriteCtxImpl::new` after writing `bs`
through `cur_writer()` (the write path for fixed-layout records: every
field lands inline in the default heap's first block). -/
def primCtx {C : Type} [LinearOrder C] [Inhabited C] (bs : List Byte) : WriteCtxImpl C :=
  (WriteCtxImpl.new).curWrite bs

theorem primCtx_eq {C : Type} [LinearOrder C] [Inhabited C] (bs : List Byte) :
    (primCtx bs : WriteCtxImpl C)
      = ⟨⟨0, [⟨[], ⟨bs, bs.length⟩⟩]⟩, []⟩ := by
  simp [primCtx, WriteCtxImpl.new, WriteCtxImpl.curWrite, WriteHeap.new, WriteHeap.curWrite,
    WriteHeap.curBlock, WriteHeap.setCurBlock, HeapBlock.new, Cursor.writeAll]

/-- Assembling a context whose sole content is `bs` in the default heap's
first block yields exactly `bs`, with the single block offset 0 and no
leftover relocations. -/
theorem toBufferFull_primCtx {C : Type} [LinearOrder C] [Inhabited C] (bs : List Byte)
    (d : WriteDomain) :
    (primCtx bs : WriteCtxImpl C).toBufferFull d = (⟨bs, bs.length⟩, [0], [[]]) := by
  rw [WriteCtxImpl.toBufferFull, WriteCtxImpl.sortedHeaps, primCtx_eq]
  show (List.insertionSort _ (indexInsert [] (default : C) _)).foldl _ _ = _
  rw [indexInsert]
  simp only [List.any_nil, Bool.false_eq_true, if_false, List.nil_append,
    List.insertionSort, List.orderedInsert]
  show (_, _, _) = _
  simp [WriteHeap.toWriter, toWriterGo, toWriterStep, Cursor.writeAll]

/-!
Concrete driver and scenario contexts used by the claim theorems.
-/

/-- A concrete little-endian driver whose `apply_reference` writes the
target's absolute offset as a 4-byte little-endian word (the absolute
32-bit pointer encoding of §6; cf. `pointers/pointer_nz32.rs`). -/
def absDom : WriteDomain :=
  ⟨true, fun _pos target => uWrite true 4 target⟩

/-- A content callback that writes `bs` through the inner context's
`cur_writer()` and succeeds. -/
def writeCb {C : Type} (bs : List Byte) :
    InnerState C → Except Unit Unit × InnerState C :=
  fun s => (.ok (), ⟨s.innerHeap.curWrite bs, s.parent⟩)

/-- A content callback that fails immediately (its `?` propagates). -/
def failCb {C : Type} : InnerState C → Except Unit Unit × InnerState C :=
  fun s => (.error (), s)

/-!
Map lemmas for the `IndexMap` model, used to relate `heap_id_of` /
`remove_heap` / `set_heap` to the `heap()` view.
-/

theorem getElem?_findIdx?_find? {α : Type} (p : α → Bool) (m : List α) (i : Nat)
    (h : m.findIdx? p = some i) : m[i]? = m.find? p := by
  induction m generalizing i with
  | nil => simp at h
  | cons a l ih =>
    rw [List.findIdx?_cons] at h
    by_cases hpa : p a
    · simp only [hpa, if_true, Option.some.injEq] at h
      subst h
      simp [List.find?_cons_of_pos _ hpa]
    · simp only [hpa, Bool.false_eq_true, if_false] at h
      rw [List.findIdx?_succ] at h
      rcases Option.map_eq_some'.mp h with ⟨j, hj, rfl⟩
      simp [List.find?_cons_of_neg _ hpa, ih j hj]

/-- The value removed by a swap-remove is the first entry with the key. -/
theorem swapRemove_snd {C : Type} [LinearOrder C] [Inhabited C]
    (m : List (C × WriteHeap)) (k : C) :
    (swapRemove m k).2 = (m.find? fun e => e.1 = k).map (·.2) := by
  unfold swapRemove
  cases hfi : m.findIdx? (fun e => e.1 = k) with
  | none =>
    rw [List.findIdx?_eq_none_iff] at hfi
    rw [List.find?_eq_none.mpr fun x hx => by simpa using hfi x hx]
    rfl
  | some i =>
    have hget := getElem?_findIdx?_find? _ m i hfi
    by_cases hlen : i + 1 = m.length
    · simp [hlen, hget]
    · cases m.getLast? <;> simp [hlen, hget]

theorem find?_append_of_none {α : Type} (p : α → Bool) (l₁ l₂ : List α)
    (h : l₁.find? p = none) : (l₁ ++ l₂).find? p = l₂.find? p := by
  induction l₁ with
  | nil => rfl
  | cons a l ih =>
    by_cases hpa : p a
    · simp [List.find?_cons_of_pos _ hpa] at h
    · rw [List.find?_cons_of_neg _ hpa] at h
      simp [List.find?_cons_of_neg _ hpa, ih h]

theorem any_eq_false_find?_eq_none {α : Type} (p : α → Bool) (l : List α)
    (h : ¬ l.any p = true) : l.find? p = none := by
  rw [List.find?_eq_none]
  intro x hx hpx
  exact h (List.any_eq_true.mpr ⟨x, hx, hpx⟩)

/-- Looking up the key just forced by `entry(k).or_default()` yields the
original entry when present and the default entry otherwise. -/
theorem find?_entryOrDefault {C : Type} [LinearOrder C] [Inhabited C]
    (m : List (C × WriteHeap)) (k : C) :
    (entryOrDefault m k).find? (fun e => e.1 = k)
      = some ((m.find? fun e => e.1 = k).getD (k, WriteHeap.new)) := by
  unfold entryOrDefault
  by_cases h : m.any (fun e => e.1 = k)
  · simp only [h, if_true]
    have : ∃ x ∈ m, (fun e : C × WriteHeap => decide (e.1 = k)) x := by
      simpa [List.any_eq_true] using h
    rcases hf : m.find? (fun e => e.1 = k) with _ | x
    · rw [List.find?_eq_none] at hf
      rcases this with ⟨x, hx, hpx⟩
      exact absurd hpx (by simpa using hf x hx)
    · simp [hf]
  · simp only [h, Bool.false_eq_true, if_false]
    have hnone : m.find? (fun e => e.1 = k) = none :=
      any_eq_false_find?_eq_none _ _ h
    rw [find?_append_of_none _ _ _ hnone, hnone]
    simp

/-- The heap taken out by `InnerWriteCtx::new` (after `heap_id_of` forced
the map entry) is exactly the heap the caller could observe via `heap()`
before the call. -/
theorem removeHeap_heapIdOf_snd {C : Type} [LinearOrder C] [Inhabited C]
    (ctx : WriteCtxImpl C) (cat : C) :
    ((ctx.heapIdOf cat).1.removeHeap cat).2 = ctx.heapFor cat := by
  unfold WriteCtxImpl.heapIdOf WriteCtxImpl.removeHeap WriteCtxImpl.heapFor
  by_cases hd : cat = default
  · simp [hd]
  · simp only [hd, if_false]
    rw [swapRemove_snd, find?_entryOrDefault]
    cases hf : ctx.heaps.find? (fun e => e.1 = cat) <;> simp [hf]

theorem find?_map_replace {C : Type} [LinearOrder C] [Inhabited C]
    (m : List (C × WriteHeap)) (k : C) (v : WriteHeap) (h : m.any (fun e => e.1 = k) = true) :
    ((m.map fun e => if e.1 = k then (k, v) else e).find? fun e => e.1 = k)
      = some (k, v) := by
  induction m with
  | nil => simp at h
  | cons a l ih =>
    by_cases hak : a.1 = k
    · simp [hak]
    · have hl : l.any (fun e => e.1 = k) = true := by
        simpa [List.any_cons, hak] using h
      simp only [List.map_cons, hak, if_false]
      rw [List.find?_cons_of_neg _ (by simpa using hak)]
      exact ih hl

/-- After `IndexMap::insert`, looking up the inserted key yields the
inserted value. -/
theorem find?_indexInsert_self {C : Type} [LinearOrder C] [Inhabited C]
    (m : List (C × WriteHeap)) (k : C) (v : WriteHeap) :
    ((indexInsert m k v).find? fun e => e.1 = k) = some (k, v) := by
  unfold indexInsert
  by_cases h : m.any (fun e => e.1 = k)
  · simp only [h, if_true]
    exact find?_map_replace m k v h
  · simp only [h, Bool.false_eq_true, if_false]
    have hnone : m.find? (fun e => e.1 = k) = none :=
      any_eq_false_find?_eq_none _ _ h
    rw [find?_append_of_none _ _ _ hnone]
    simp

/-- `heap()` after `set_heap(cat, h)` observes `h`. -/
theorem heapFor_setHeap {C : Type} [LinearOrder C] [Inhabited C]
    (ctx : WriteCtxImpl C) (cat : C) (h : WriteHeap) :
    (ctx.setHeap cat h).heapFor cat = h := by
  unfold WriteCtxImpl.setHeap WriteCtxImpl.heapFor
  by_cases hd : cat = default
  · simp [hd]
  · simp [hd, find?_indexInsert_self]

/-- Writing to a cursor parked at the end of its data appends (simp form:
the position hypothesis is discharged by evaluation on literals). -/
@[simp]
theorem writeAll_end_simp (l : List Byte) (p : Nat) (bs : List Byte) (h : p = l.length) :
    Cursor.writeAll ⟨l, p⟩ bs = ⟨l ++ bs, p + bs.length⟩ := by
  subst h
  exact Cursor.writeAll_at_end ⟨l, l.length⟩ bs rfl

/-!
Scenario contexts for the relocation claims (C1, C2, C5).
Each is built by running the model operations, mirroring a client that
calls `allocate_next_block` with category-tagged callbacks and then
`write_token`.
-/

/-- Allocation of a `[0xAA]` block in category 1 on a fresh context. -/
def allocA : Option (Except Unit HeapToken × WriteCtxImpl Nat) :=
  (WriteCtxImpl.new : WriteCtxImpl Nat).allocateNextBlock (some 1) (writeCb [0xAA])

/-- The context after `allocA`. -/
def ctxA : WriteCtxImpl Nat :=
  ⟨WriteHeap.new, [(1, ⟨0, [HeapBlock.new, ⟨[], ⟨[0xAA], 1⟩⟩]⟩)]⟩

/-- Allocation of a `[0xBB]` block in category 2 after `allocA`. -/
def allocB : Option (Except Unit HeapToken × WriteCtxImpl Nat) :=
  ctxA.allocateNextBlock (some 2) (writeCb [0xBB])

/-- The context after `allocB`. -/
def ctxB : WriteCtxImpl Nat :=
  ⟨WriteHeap.new,
    [(1, ⟨0, [HeapBlock.new, ⟨[], ⟨[0xAA], 1⟩⟩]⟩),
     (2, ⟨0, [HeapBlock.new, ⟨[], ⟨[0xBB], 1⟩⟩]⟩)]⟩

/-- `ctxA` followed by `write_token::<4>` of the returned token into the
default heap: a placeholder in the default heap whose token points into
the category-1 heap's block 1 — a cross-heap relocation. -/
def ctxCross : WriteCtxImpl Nat :=
  ctxA.writeToken 4 ⟨0, 1, 0⟩

/-- Single-heap scenario: write `bs0` to the default heap, then allocate a
next block whose callback writes `bs1`. -/
def allocAfterWrite (bs0 bs1 : List Byte) :
    Option (Except Unit HeapToken × WriteCtxImpl Nat) :=
  ((WriteCtxImpl.new : WriteCtxImpl Nat).curWrite bs0).allocateNextBlock none (writeCb bs1)

/-- The context after `allocAfterWrite bs0 bs1`. -/
def ctxSingle (bs0 bs1 : List Byte) : WriteCtxImpl Nat :=
  ⟨⟨0, [⟨[], ⟨bs0, bs0.length⟩⟩, ⟨[], ⟨bs1, bs1.length⟩⟩]⟩, [(0, WriteHeap.new)]⟩

/-- Dangling-relocation scenario for C2: allocate a `[0xBB]` block in
category 2, then `write_token::<4>` its token into the default heap.  The
default heap is emitted first and its pending list dies at the heap
boundary, so the relocation is never resolved. -/
def ctxDangling : WriteCtxImpl Nat :=
  (⟨WriteHeap.new, [(2, ⟨0, [HeapBlock.new, ⟨[], ⟨[0xBB], 1⟩⟩]⟩)]⟩ :
    WriteCtxImpl Nat).writeToken 4 ⟨0, 1, 0⟩

/-!
Claim theorems.
-/

/-- **C4** (confirmed). For every record whose every field is a primitive
(`u8..u64`, `i8..i64`, `f32`, `f64`, `bool`) or another such fixed-layout
record, writing the value through the context, running assembly, and
reading the produced bytes back under the same domain reproduces the
original value, and the byte stream round-trips byte-for-byte: the
assembled buffer is exactly the field-by-field encoding (read of a K-byte
primitive is: read K bytes, byte-swap if the domain reports big-endian,
decode; write is its inverse), and parsing it returns the original value
consuming the whole buffer. -/
theorem fixed_layout_record_roundtrip (d : WriteDomain) (v : FixedVal) (ty : FixedTy)
    (hty : hasTy v ty) (hval : validVal v) :
    (primCtx (writeVal d.littleEndian v) : WriteCtxImpl Nat).toBuffer d
        = writeVal d.littleEndian v
    ∧ readVal d.littleEndian ty
        ((primCtx (writeVal d.littleEndian v) : WriteCtxImpl Nat).toBuffer d)
        = some (v, []) := by
  have hbuf : (primCtx (writeVal d.littleEndian v) : WriteCtxImpl Nat).toBuffer d
      = writeVal d.littleEndian v := by
    rw [WriteCtxImpl.toBuffer, toBufferFull_primCtx]
  refine ⟨hbuf, ?_⟩
  rw [hbuf]
  have := readVal_writeVal d.littleEndian v ty [] hty hval
  simpa using this

/-- A concrete nested record value
`{a: u8 = 7, b: {c: u16 = 300, d: bool = true}, e: i8 = -5, f: f32 = 1.0}`
(1.0f32 has bit pattern 0x3F800000). -/
def sampleVal : FixedVal :=
  .vCons (.vU 1 7)
    (.vCons (.vCons (.vU 2 300) (.vCons (.vBool true) .vNil))
      (.vCons (.vI 1 (-5)) (.vCons (.vF32 0x3F800000) .vNil)))

/-- The layout of `sampleVal`. -/
def sampleTy : FixedTy :=
  .tCons (.tU 1)
    (.tCons (.tCons (.tU 2) (.tCons .tBool .tNil))
      (.tCons (.tI 1) (.tCons .tF32 .tNil)))

/-- Witness for C4: the concrete record `sampleVal` round-trips through
assembly under the little-endian driver. -/
theorem fixed_layout_record_roundtrip_witness :
    hasTy sampleVal sampleTy = true
    ∧ validVal sampleVal = true
    ∧ ((primCtx (writeVal absDom.littleEndian sampleVal) : WriteCtxImpl Nat).toBuffer absDom
          = writeVal absDom.littleEndian sampleVal
      ∧ readVal absDom.littleEndian sampleTy
          ((primCtx (writeVal absDom.littleEndian sampleVal)
            : WriteCtxImpl Nat).toBuffer absDom)
          = some (sampleVal, [])) :=
  ⟨by decide, by decide,
    fixed_layout_record_roundtrip absDom sampleVal sampleTy (by decide) (by decide)⟩

/-- **C3** (corrected: counterexample). A failing content callback does
*not* leave the heap's `current_block` at its pre-call value: the restore
`ctx.default_heap.current_block = prev_current_block` in
`allocate_next_block` sits *after* the `content_callback(&mut ctx)?`, so
the `?` early-return skips it; `InnerWriteCtx::drop` reinstalls the heap
into the parent, but with `current_block` still pointing at the freshly
selected block.  Concretely: on a fresh context (current block 0) a
callback that fails immediately leaves the default heap at block 1. -/
theorem allocate_error_path_current_block_cex :
    (WriteCtxImpl.new : WriteCtxImpl Nat).allocateNextBlock none failCb
      = some (.error (), ⟨⟨1, [HeapBlock.new, HeapBlock.new]⟩, [(0, WriteHeap.new)]⟩)
    ∧ ((⟨⟨1, [HeapBlock.new, HeapBlock.new]⟩, [(0, WriteHeap.new)]⟩ : WriteCtxImpl Nat).heapFor
          0).currentBlock = 1
    ∧ ((WriteCtxImpl.new : WriteCtxImpl Nat).heapFor 0).currentBlock = 0 :=
  ⟨rfl, rfl, rfl⟩

/-- **C3** (amended). On the *success* path of `allocate_next_block` /
`allocate_next_block_aligned`, whatever the callback did, the selected
heap's `current_block` observed by the caller afterwards equals its value
immediately before the call (and the heap is reinstalled in the parent);
on the error path the heap is also reinstalled, but `current_block` is
*not* restored (see the counterexample). -/
theorem allocate_success_restores_current_block {C : Type} [LinearOrder C] [Inhabited C]
    {E : Type} (ctx : WriteCtxImpl C) (category : Option C) (alignment : Nat)
    (cb : InnerState C → Except E Unit × InnerState C) (tok : HeapToken)
    (ctx' : WriteCtxImpl C)
    (h : ctx.allocateNextBlockAligned category alignment cb = some (.ok tok, ctx')) :
    (ctx'.heapFor (category.getD default)).currentBlock
      = (ctx.heapFor (category.getD default)).currentBlock := by
  rw [WriteCtxImpl.allocateNextBlockAligned] at h
  split at h
  · exact absurd h (by simp)
  · simp only [] at h
    split at h
    · simp only [Option.some.injEq, Prod.mk.injEq] at h
      rw [← h.2, heapFor_setHeap]
      show ((ctx.heapIdOf (category.getD default)).1.removeHeap
          (category.getD default)).2.currentBlock
        = (ctx.heapFor (category.getD default)).currentBlock
      rw [removeHeap_heapIdOf_snd ctx (category.getD default)]
    · exact absurd h (by simp)

/-- Witness for C3: a successful allocation with a callback writing one
byte, on a fresh context, leaves the default heap parked at block 0 as
before the call. -/
theorem allocate_success_restores_current_block_witness :
    (WriteCtxImpl.new : WriteCtxImpl Nat).allocateNextBlockAligned none 0 (writeCb [5])
      = some (.ok ⟨0, 1, 0⟩,
          ⟨⟨0, [HeapBlock.new, ⟨[], ⟨[5], 1⟩⟩]⟩, [(0, WriteHeap.new)]⟩)
    ∧ ((⟨⟨0, [HeapBlock.new, ⟨[], ⟨[5], 1⟩⟩]⟩, [(0, WriteHeap.new)]⟩ :
          WriteCtxImpl Nat).heapFor ((none : Option Nat).getD default)).currentBlock
        = ((WriteCtxImpl.new : WriteCtxImpl Nat).heapFor
            ((none : Option Nat).getD default)).currentBlock :=
  ⟨rfl,
    allocate_success_restores_current_block (WriteCtxImpl.new : WriteCtxImpl Nat) none 0
      (writeCb [5]) ⟨0, 1, 0⟩ _ rfl⟩

/-- **C6** (corrected: counterexample). A `WriteCtxImpl` on which no write
was ever performed, assembled with a block-offsets list requested, does
*not* leave that list empty: `WriteHeap::new` seeds one empty block and
`to_writer` pushes its start offset unconditionally, so the list comes
back as `[0]`. -/
theorem empty_context_offsets_nonempty_cex :
    (WriteCtxImpl.new : WriteCtxImpl Nat).toBufferOffsets absDom = [0]
    ∧ (WriteCtxImpl.new : WriteCtxImpl Nat).toBufferOffsets absDom ≠ [] := by
  constructor
  · rfl
  · decide

/-- **C6** (amended). A never-written context assembles, for every domain,
to a zero-length byte vector with zero pending relocations left over; the
requested block-offsets list however contains exactly one entry `0`, the
start offset of the default heap's seed block. -/
theorem empty_context_assembly {C : Type} [LinearOrder C] [Inhabited C] (d : WriteDomain) :
    (WriteCtxImpl.new : WriteCtxImpl C).toBufferFull d = (⟨[], 0⟩, [0], [[]]) := by
  rfl

/-- **C8** (confirmed). A `SeekGuard` records the reader's position on
construction and restores it on release along every exit path — on a
successful body just as on one whose error propagates out of the guarded
region — while leaving the body's result and the reader's data untouched;
in particular any nested pointer-chase (`chasePointer`) returns with the
outer cursor exactly where it was before the guard was created. -/
theorem seek_guard_restores_position {E A : Type} (s : Cursor)
    (body : Cursor → Except E A × Cursor) :
    (seekGuardRun s body).2.pos = s.pos
    ∧ (seekGuardRun s body).1 = (body s).1
    ∧ (seekGuardRun s body).2.data = (body s).2.data
    ∧ (∀ ptr : Nat, (chasePointer s ptr body).2.pos = s.pos)
    ∧ (∀ e : E, (body s).1 = .error e → (seekGuardRun s body).1 = .error e) := by
  refine ⟨rfl, rfl, rfl, fun ptr => rfl, fun e he => ?_⟩
  simpa [seekGuardRun] using he

/-- **C7** (confirmed). After a successful `align_to(A)` with `A > 0` the
writer's position is a multiple of `A`, exactly
`(A - pos % A) % A` zero bytes were written at the cursor, and with
`A = 0` the call is a no-op. -/
theorem align_to_spec (w : Cursor) (A : Nat) (w' : Cursor)
    (h : alignTo w A = some w') :
    (A = 0 → w' = w)
    ∧ (0 < A →
        w'.pos % A = 0
        ∧ w' = w.writeAll (List.replicate (alignPadding A w.pos) 0)
        ∧ w'.pos = w.pos + alignPadding A w.pos
        ∧ alignPadding A w.pos = (A - w.pos % A) % A) := by
  constructor
  · intro hA
    subst hA
    simpa [alignTo] using h.symm
  · intro hA
    have hA0 : ¬ A = 0 := Nat.pos_iff_ne_zero.mp hA
    rw [alignTo] at h
    simp only [hA0, if_false] at h
    rw [alignPaddingInt_toNat A w.pos hA] at h
    by_cases hle : alignPadding A w.pos ≤ ZEROES.length
    · simp only [hle, if_true, Option.some.injEq] at h
      subst h
      refine ⟨?_, rfl, by simp [Cursor.writeAll_pos], rfl⟩
      have hmod : w.pos % A < A := Nat.mod_lt _ hA
      rcases Nat.eq_zero_or_pos (w.pos % A) with hz | hpos
      · have hpad : alignPadding A w.pos = 0 := by
          unfold alignPadding
          rw [hz, Nat.sub_zero, Nat.mod_self]
        rw [Cursor.writeAll_pos]
        simp [hpad, Nat.add_mod, hz]
      · have hpad : alignPadding A w.pos = A - w.pos % A := by
          unfold alignPadding
          exact Nat.mod_eq_of_lt (by omega)
        rw [Cursor.writeAll_pos]
        simp only [List.length_replicate, hpad]
        have hdecomp : w.pos = A * (w.pos / A) + w.pos % A := (Nat.div_add_mod _ _).symm
        have : w.pos + (A - w.pos % A) = A * (w.pos / A) + A := by omega
        rw [this]
        have : A * (w.pos / A) + A = A * (w.pos / A + 1) := by ring
        rw [this]
        exact Nat.mul_mod_right _ _
    · simp [hle] at h

/-- Witness for C7: aligning a cursor at position 3 to alignment 4 writes
one zero byte and lands on position 4. -/
theorem align_to_spec_witness :
    alignTo ⟨[7, 7, 7], 3⟩ 4 = some ⟨[7, 7, 7, 0], 4⟩
    ∧ ((4 = 0 → (⟨[7, 7, 7, 0], 4⟩ : Cursor) = ⟨[7, 7, 7], 3⟩)
      ∧ (0 < 4 →
          (⟨[7, 7, 7, 0], 4⟩ : Cursor).pos % 4 = 0
          ∧ (⟨[7, 7, 7, 0], 4⟩ : Cursor)
              = Cursor.writeAll ⟨[7, 7, 7], 3⟩ (List.replicate (alignPadding 4 3) 0)
          ∧ (⟨[7, 7, 7, 0], 4⟩ : Cursor).pos = 3 + alignPadding 4 3
          ∧ alignPadding 4 3 = (4 - 3 % 4) % 4)) :=
  ⟨by decide, align_to_spec ⟨[7, 7, 7], 3⟩ 4 ⟨[7, 7, 7, 0], 4⟩ (by decide)⟩

/-- **C10** (confirmed). `align_to` is not total in the alignment: the
padding is a slice of the fixed 128-byte `ZEROES` buffer, so alignment 256
at position 1 (padding 255) panics on the out-of-bounds slice (modelled as
`none`), while every call whose required padding is at most 128 bytes
succeeds. -/
theorem align_to_partiality :
    alignTo ⟨[0], 1⟩ 256 = none
    ∧ (∀ (w : Cursor) (A : Nat), alignPadding A w.pos ≤ 128 → (alignTo w A).isSome) := by
  constructor
  · decide
  · intro w A hle
    rw [alignTo]
    by_cases hA : A = 0
    · simp [hA]
    · have hpos : 0 < A := Nat.pos_of_ne_zero hA
      rw [alignPaddingInt_toNat A w.pos hpos]
      have hz : alignPadding A w.pos ≤ ZEROES.length := by
        simpa [ZEROES] using hle
      simp [hA, hz]

/-- Witness for C10: alignment 8 at position 5 needs 3 padding bytes,
within the 128-byte buffer, and succeeds. -/
theorem align_to_partiality_witness :
    alignPadding 8 5 ≤ 128 ∧ (alignTo ⟨[1, 2, 3, 4, 5], 5⟩ 8).isSome :=
  ⟨by decide, align_to_partiality.2 ⟨[1, 2, 3, 4, 5], 5⟩ 8 (by decide)⟩

/-- **C5** (corrected: counterexample). In a context with more than one
heap, the token returned by `allocate_next_block` does *not* resolve to
the first byte written inside its callback: `resolve` indexes the *global*
block-offsets list with the *per-heap* `block_id`.  Concretely, after
allocating `[0xAA]` in category 1 and `[0xBB]` in category 2, the second
token `(heap 1, block 1, offset 0)` resolves to offset 0 — which holds the
first callback's byte `0xAA` — while its callback's first byte `0xBB` sits
at offset 1. -/
theorem token_resolve_multi_heap_cex :
    allocA = some (.ok ⟨0, 1, 0⟩, ctxA)
    ∧ allocB = some (.ok ⟨1, 1, 0⟩, ctxB)
    ∧ ctxB.toBuffer absDom = [0xAA, 0xBB]
    ∧ ctxB.toBufferOffsets absDom = [0, 0, 0, 1, 1]
    ∧ HeapToken.resolve ⟨1, 1, 0⟩ (ctxB.toBufferOffsets absDom) = some 0
    ∧ (ctxB.toBuffer absDom)[1]? = some 0xBB
    ∧ (ctxB.toBuffer absDom)[0]? = some 0xAA
    ∧ ¬ HeapToken.resolve ⟨1, 1, 0⟩ (ctxB.toBufferOffsets absDom) = some 1 :=
  ⟨rfl, rfl, rfl, rfl, rfl, rfl, rfl, by decide⟩

/-- **C5** (amended). When every block lives in a single heap (the default
heap, the first heap emitted), the token returned by
`allocate_next_block` resolves, after assembly with the block-offsets list
requested, to exactly the absolute offset of the first byte written inside
that call's content callback: for arbitrary prior content `bs0` and
callback content `bs1`, the token is `(heap 0, block 1, offset 0)`, the
offsets list is `[0, |bs0|]`, the token resolves to `|bs0|`, and the
output from that offset on is exactly `bs1`. -/
theorem token_resolve_single_heap (bs0 bs1 : List Byte) (d : WriteDomain) :
    allocAfterWrite bs0 bs1 = some (.ok ⟨0, 1, 0⟩, ctxSingle bs0 bs1)
    ∧ (ctxSingle bs0 bs1).toBuffer d = bs0 ++ bs1
    ∧ (ctxSingle bs0 bs1).toBufferOffsets d = [0, bs0.length]
    ∧ HeapToken.resolve ⟨0, 1, 0⟩ ((ctxSingle bs0 bs1).toBufferOffsets d)
        = some bs0.length
    ∧ ((ctxSingle bs0 bs1).toBuffer d).drop bs0.length = bs1 := by
  have halloc : allocAfterWrite bs0 bs1 = some (.ok ⟨0, 1, 0⟩, ctxSingle bs0 bs1) := by
    simp [allocAfterWrite, ctxSingle, WriteCtxImpl.new, WriteCtxImpl.curWrite,
      WriteCtxImpl.allocateNextBlock, WriteCtxImpl.allocateNextBlockAligned,
      WriteCtxImpl.heapIdOf, WriteCtxImpl.removeHeap, WriteCtxImpl.setHeap,
      entryOrDefault, getIndexOf, indexInsert, WriteHeap.new, WriteHeap.curWrite,
      WriteHeap.curBlock, WriteHeap.setCurBlock, HeapBlock.new,
      WriteHeap.seekToNewBlock, WriteHeap.heapTokenAtCurrentPos, writeCb,
      Cursor.writeAll, List.findIdx_cons]
  have hfull : (ctxSingle bs0 bs1).toBufferFull d
      = (⟨bs0 ++ bs1, bs0.length + bs1.length⟩, [0, bs0.length], [[]]) := by
    simp [ctxSingle, WriteCtxImpl.toBufferFull, WriteCtxImpl.sortedHeaps, indexInsert,
      WriteHeap.toWriter, toWriterGo, toWriterStep, List.insertionSort,
      List.orderedInsert, WriteHeap.new, HeapBlock.new]
  refine ⟨halloc, ?_, ?_, ?_, ?_⟩
  · rw [WriteCtxImpl.toBuffer, hfull]
  · rw [WriteCtxImpl.toBufferOffsets, hfull]
  · rw [WriteCtxImpl.toBufferOffsets, hfull]
    rfl
  · rw [WriteCtxImpl.toBuffer, hfull]
    simp

/-- **C2** (corrected: counterexample). A finalized context holding a
relocation whose token targets a block of another heap — one that is never
emitted during the pass that owns the pending entry — does *not* make
assembly fail: `to_writer` never checks its `all_relocations` residue (no
`UnresolvedRelocation` error exists anywhere in the crate), so `to_buffer`
returns a byte vector with the placeholder's zero bytes intact, and the
dangling entry is silently dropped at the heap boundary. -/
theorem assembly_ignores_dangling_relocation_cex :
    ((ctxDangling.toBufferFull absDom).2.2)[0]? = some [(0, ⟨0, 1, 0⟩)]
    ∧ ¬ ((ctxDangling.toBufferFull absDom).2.2)[0]? = some []
    ∧ ctxDangling.toBuffer absDom = [0, 0, 0, 0, 0xBB] :=
  ⟨rfl, by decide, rfl⟩

/-- **C2** (amended). At termination of each heap's `to_writer` pass the
pending list may be nonempty; no emptiness check is performed and no error
is raised: for *every* domain, the dangling-relocation context assembles
to the concatenated bytes with the 4-byte placeholder still zero, the
default heap's pass leaving exactly the dangling entry behind. -/
theorem assembly_returns_despite_dangling_relocations (d : WriteDomain) :
    ctxDangling.toBufferFull d = (⟨[0, 0, 0, 0, 0xBB], 5⟩, [0, 4, 4], [[(0, ⟨0, 1, 0⟩)], []])
    ∧ ctxDangling.toBuffer d = [0, 0, 0, 0, 0xBB] :=
  ⟨rfl, rfl⟩

/-- **C9** (confirmed). Assembly is deterministic.  The model is a pure
function of the context, so identical operation sequences trivially give
identical outputs; the substantive content proved here is that the output
does not even depend on the *insertion order* of the category map: two
contexts whose combined heap lists (after inserting the default heap, as
`to_buffer` does) are permutations of each other with no duplicate
category, assemble to byte-identical buffers and identical block-offset
lists — heaps are emitted in the category order (the stable sort by key on
distinct keys is order-independent), blocks in construction order, and
relocations in insertion order. -/
theorem assembly_deterministic {C : Type} [LinearOrder C] [Inhabited C]
    (ctx1 ctx2 : WriteCtxImpl C) (d : WriteDomain)
    (hperm : (indexInsert ctx1.heaps (default : C) ctx1.defaultHeap).Perm
        (indexInsert ctx2.heaps (default : C) ctx2.defaultHeap))
    (hnodup : ((indexInsert ctx1.heaps (default : C) ctx1.defaultHeap).map Prod.fst).Nodup) :
    ctx1.toBuffer d = ctx2.toBuffer d
    ∧ ctx1.toBufferOffsets d = ctx2.toBufferOffsets d := by
  suffices hs : ctx1.sortedHeaps = ctx2.sortedHeaps by
    have : ctx1.toBufferFull d = ctx2.toBufferFull d := by
      rw [WriteCtxImpl.toBufferFull, WriteCtxImpl.toBufferFull, hs]
    exact ⟨by rw [WriteCtxImpl.toBuffer, WriteCtxImpl.toBuffer, this],
      by rw [WriteCtxImpl.toBufferOffsets, WriteCtxImpl.toBufferOffsets, this]⟩
  haveI : IsTotal (C × WriteHeap) (fun a b => a.1 ≤ b.1) := ⟨fun a b => le_total a.1 b.1⟩
  haveI : IsTrans (C × WriteHeap) (fun a b => a.1 ≤ b.1) :=
    ⟨fun _ _ _ hab hbc => le_trans hab hbc⟩
  haveI : IsAntisymm (C × WriteHeap) (fun a b => a.1 < b.1) :=
    ⟨fun a b h1 h2 => absurd (lt_trans h1 h2) (lt_irrefl _)⟩
  set l1 := indexInsert ctx1.heaps (default : C) ctx1.defaultHeap with hl1
  set l2 := indexInsert ctx2.heaps (default : C) ctx2.defaultHeap with hl2
  have hp1 : List.Perm (l1.insertionSort fun a b => a.1 ≤ b.1) l1 :=
    List.perm_insertionSort _ l1
  have hp2 : List.Perm (l2.insertionSort fun a b => a.1 ≤ b.1) l2 :=
    List.perm_insertionSort _ l2
  have hs1 : List.Sorted (fun a b : C × WriteHeap => a.1 ≤ b.1)
      (l1.insertionSort fun a b => a.1 ≤ b.1) := List.sorted_insertionSort _ l1
  have hs2 : List.Sorted (fun a b : C × WriteHeap => a.1 ≤ b.1)
      (l2.insertionSort fun a b => a.1 ≤ b.1) := List.sorted_insertionSort _ l2
  have hperm12 : List.Perm (l1.insertionSort fun a b => a.1 ≤ b.1)
      (l2.insertionSort fun a b => a.1 ≤ b.1) :=
    (hp1.trans hperm).trans hp2.symm
  have hne1 : List.Pairwise (fun a b : C × WriteHeap => a.1 ≠ b.1)
      (l1.insertionSort fun a b => a.1 ≤ b.1) := by
    have : ((l1.insertionSort fun a b => a.1 ≤ b.1).map Prod.fst).Nodup :=
      ((hp1.map Prod.fst).nodup_iff).mpr hnodup
    exact List.pairwise_map.mp this
  have hne2 : List.Pairwise (fun a b : C × WriteHeap => a.1 ≠ b.1)
      (l2.insertionSort fun a b => a.1 ≤ b.1) := by
    have hnodup2 : ((l2.insertionSort fun a b => a.1 ≤ b.1).map Prod.fst).Nodup :=
      (((hp2.map Prod.fst).trans ((hperm.symm).map Prod.fst)).nodup_iff).mpr hnodup
    exact List.pairwise_map.mp hnodup2
  have hlt1 : List.Pairwise (fun a b : C × WriteHeap => a.1 < b.1)
      (l1.insertionSort fun a b => a.1 ≤ b.1) :=
    List.Pairwise.imp₂ (fun _ _ hle hne => lt_of_le_of_ne hle hne) hs1 hne1
  have hlt2 : List.Pairwise (fun a b : C × WriteHeap => a.1 < b.1)
      (l2.insertionSort fun a b => a.1 ≤ b.1) :=
    List.Pairwise.imp₂ (fun _ _ hle hne => lt_of_le_of_ne hle hne) hs2 hne2
  exact List.eq_of_perm_of_sorted hperm12 hlt1 hlt2

/-- Witness for C9: two concrete contexts with the same heaps inserted in
opposite orders assemble identically. -/
theorem assembly_deterministic_witness :
    (indexInsert
        ([(1, ⟨0, [⟨[], ⟨[10], 1⟩⟩]⟩), (2, ⟨0, [⟨[], ⟨[20], 1⟩⟩]⟩)] :
          List (Nat × WriteHeap)) 0 ⟨0, [⟨[], ⟨[9], 1⟩⟩]⟩).Perm
      (indexInsert
        ([(2, ⟨0, [⟨[], ⟨[20], 1⟩⟩]⟩), (1, ⟨0, [⟨[], ⟨[10], 1⟩⟩]⟩)] :
          List (Nat × WriteHeap)) 0 ⟨0, [⟨[], ⟨[9], 1⟩⟩]⟩)
    ∧ ((indexInsert
        ([(1, ⟨0, [⟨[], ⟨[10], 1⟩⟩]⟩), (2, ⟨0, [⟨[], ⟨[20], 1⟩⟩]⟩)] :
          List (Nat × WriteHeap)) 0 ⟨0, [⟨[], ⟨[9], 1⟩⟩]⟩).map Prod.fst).Nodup
    ∧ ((⟨⟨0, [⟨[], ⟨[9], 1⟩⟩]⟩,
          [(1, ⟨0, [⟨[], ⟨[10], 1⟩⟩]⟩), (2, ⟨0, [⟨[], ⟨[20], 1⟩⟩]⟩)]⟩ :
            WriteCtxImpl Nat).toBuffer absDom
        = (⟨⟨0, [⟨[], ⟨[9], 1⟩⟩]⟩,
            [(2, ⟨0, [⟨[], ⟨[20], 1⟩⟩]⟩), (1, ⟨0, [⟨[], ⟨[10], 1⟩⟩]⟩)]⟩ :
              WriteCtxImpl Nat).toBuffer absDom
      ∧ (⟨⟨0, [⟨[], ⟨[9], 1⟩⟩]⟩,
          [(1, ⟨0, [⟨[], ⟨[10], 1⟩⟩]⟩), (2, ⟨0, [⟨[], ⟨[20], 1⟩⟩]⟩)]⟩ :
            WriteCtxImpl Nat).toBufferOffsets absDom
        = (⟨⟨0, [⟨[], ⟨[9], 1⟩⟩]⟩,
            [(2, ⟨0, [⟨[], ⟨[20], 1⟩⟩]⟩), (1, ⟨0, [⟨[], ⟨[10], 1⟩⟩]⟩)]⟩ :
              WriteCtxImpl Nat).toBufferOffsets absDom) :=
  ⟨by decide, by decide,
    assembly_deterministic
      ⟨⟨0, [⟨[], ⟨[9], 1⟩⟩]⟩, [(1, ⟨0, [⟨[], ⟨[10], 1⟩⟩]⟩), (2, ⟨0, [⟨[], ⟨[20], 1⟩⟩]⟩)]⟩
      ⟨⟨0, [⟨[], ⟨[9], 1⟩⟩]⟩, [(2, ⟨0, [⟨[], ⟨[20], 1⟩⟩]⟩), (1, ⟨0, [⟨[], ⟨[10], 1⟩⟩]⟩)]⟩
      absDom (by decide) (by decide)⟩

/-- **C1** (corrected: counterexample). A relocation whose placeholder
lies in a block of one heap while its `HeapToken` targets a block of a
*different* heap is **not** resolved by assembly: the pending list in
`WriteHeap::to_writer` is local to each heap's pass (and matching uses
`block_id` alone, never `heap_id`), so the cross-heap entry is discarded
at the heap boundary.  Concretely, a placeholder written at offset 0 of
the default heap whose token points at the category-1 heap's block 1
(which lands at absolute offset 4, so the claim would have the placeholder
overwritten with `apply_reference`'s encoding `[4,0,0,0]`) is left as four
zero bytes in the output, and the default heap's pass terminates with the
entry still pending. -/
theorem cross_heap_relocation_not_applied_cex :
    ctxCross.toBuffer absDom = [0, 0, 0, 0, 0xAA]
    ∧ ctxCross.toBufferOffsets absDom = [0, 4, 4]
    ∧ absDom.applyReference 0 (4 + 0) = [4, 0, 0, 0]
    ∧ (ctxCross.toBuffer absDom).take 4 = [0, 0, 0, 0]
    ∧ ¬ (ctxCross.toBuffer absDom).take 4 = absDom.applyReference 0 (4 + 0)
    ∧ ((ctxCross.toBufferFull absDom).2.2)[0]? = some [(0, ⟨0, 1, 0⟩)] :=
  ⟨rfl, rfl, rfl, rfl, by decide, rfl⟩

/-- **C1** (amended). Within a *single* heap's pass, relocation resolution
works as described for forward references: for every heap whose relocation
placeholders are `k`-byte windows inside their blocks (as `write_token`
produces) and pairwise non-overlapping, and every driver whose
`apply_reference` writes exactly `k` bytes, a relocation recorded in block
`i` whose token targets a strictly later block `j` of the *same* heap is
resolved during `to_writer`: the placeholder window at
`start(i) + local_offset` in the output is overwritten with
`apply_reference`'s encoding of the target's final absolute offset
`start(j) + token.offset`; moreover the emitted block-offsets list is
exactly the list of block start offsets.  (Cross-heap tokens are not
covered: the pending list is reset per heap and matching ignores
`heap_id`, see the counterexample.) -/
theorem same_heap_forward_relocation_applied
    (d : WriteDomain) (k : Nat) (henc : ∀ p o, (d.applyReference p o).length = k)
    (h : WriteHeap) (w0 : Cursor) (offs0 : List Nat)
    (hw0 : w0.pos = w0.data.length)
    (hib : relocsInBounds k h.blocks)
    (hdisj : relocsDisjoint k h.blocks)
    (i : Nat) (bi : HeapBlock) (hbi : h.blocks[i]? = some bi)
    (L : Nat) (t : HeapToken) (hmem : (L, t) ∈ bi.relocations)
    (hfwd : i < t.blockId) (hlt : t.blockId < h.blocks.length) :
    sliceAt (h.toWriter w0 d offs0).1.data
        ((blockStarts w0.pos h.blocks).getD i 0 + L) k
      = d.applyReference ((blockStarts w0.pos h.blocks).getD i 0 + L)
          ((blockStarts w0.pos h.blocks).getD t.blockId 0 + t.offset)
    ∧ (h.toWriter w0 d offs0).2.1 = offs0 ++ blockStarts w0.pos h.blocks := by
  constructor
  · have hrec := toWriterGo_reloc_applied d k t L henc h.blocks 0 w0 offs0 [] i bi
      hw0 (by intro e he; simp at he) List.Pairwise.nil hib hdisj hbi hmem
      (by omega) (by omega)
    rw [WriteHeap.toWriter]
    rw [Nat.sub_zero] at hrec
    exact hrec
  · rw [WriteHeap.toWriter]
    exact toWriterGo_offsets d k henc h.blocks 0 w0 offs0 []
      hw0 (by intro e he; simp at he) hib

/-- Witness for the amended C1: a concrete two-block heap whose first
block holds a 4-byte placeholder at offset 0 targeting block 1; after
`to_writer` under the absolute little-endian driver the window holds
`[4,0,0,0]`, the encoding of the target's absolute offset 4. -/
theorem same_heap_forward_relocation_applied_witness :
    (∀ p o, (absDom.applyReference p o).length = 4)
    ∧ (⟨[], 0⟩ : Cursor).pos = (⟨[], 0⟩ : Cursor).data.length
    ∧ relocsInBounds 4
        [⟨[(0, ⟨0, 1, 0⟩)], ⟨[0, 0, 0, 0], 4⟩⟩, ⟨[], ⟨[0xCC], 1⟩⟩]
    ∧ relocsDisjoint 4
        [⟨[(0, ⟨0, 1, 0⟩)], ⟨[0, 0, 0, 0], 4⟩⟩, ⟨[], ⟨[0xCC], 1⟩⟩]
    ∧ (sliceAt ((WriteHeap.toWriter
          ⟨0, [⟨[(0, ⟨0, 1, 0⟩)], ⟨[0, 0, 0, 0], 4⟩⟩, ⟨[], ⟨[0xCC], 1⟩⟩]⟩
          ⟨[], 0⟩ absDom []).1.data)
          ((blockStarts (⟨[], 0⟩ : Cursor).pos
            [⟨[(0, ⟨0, 1, 0⟩)], ⟨[0, 0, 0, 0], 4⟩⟩, ⟨[], ⟨[0xCC], 1⟩⟩]).getD 0 0 + 0) 4
        = absDom.applyReference
            ((blockStarts (⟨[], 0⟩ : Cursor).pos
              [⟨[(0, ⟨0, 1, 0⟩)], ⟨[0, 0, 0, 0], 4⟩⟩, ⟨[], ⟨[0xCC], 1⟩⟩]).getD 0 0 + 0)
            ((blockStarts (⟨[], 0⟩ : Cursor).pos
              [⟨[(0, ⟨0, 1, 0⟩)], ⟨[0, 0, 0, 0], 4⟩⟩, ⟨[], ⟨[0xCC], 1⟩⟩]).getD
                (⟨0, 1, 0⟩ : HeapToken).blockId 0 + (⟨0, 1, 0⟩ : HeapToken).offset)
      ∧ (WriteHeap.toWriter
          ⟨0, [⟨[(0, ⟨0, 1, 0⟩)], ⟨[0, 0, 0, 0], 4⟩⟩, ⟨[], ⟨[0xCC], 1⟩⟩]⟩
          ⟨[], 0⟩ absDom []).2.1
        = [] ++ blockStarts (⟨[], 0⟩ : Cursor).pos
            [⟨[(0, ⟨0, 1, 0⟩)], ⟨[0, 0, 0, 0], 4⟩⟩, ⟨[], ⟨[0xCC], 1⟩⟩]) :=
  ⟨fun p o => by simp [absDom, uWrite, uBytesLE_length],
   rfl,
   by unfold relocsInBounds; decide,
   by unfold relocsDisjoint winDisj; decide,
   same_heap_forward_relocation_applied absDom 4
     (fun p o => by simp [absDom, uWrite, uBytesLE_length])
     ⟨0, [⟨[(0, ⟨0, 1, 0⟩)], ⟨[0, 0, 0, 0], 4⟩⟩, ⟨[], ⟨[0xCC], 1⟩⟩]⟩
     ⟨[], 0⟩ [] rfl (by unfold relocsInBounds; decide)
     (by unfold relocsDisjoint winDisj; decide) 0 _ rfl 0 ⟨0, 1, 0⟩
     (by decide) (by decide) (by decide)⟩

end Vivibin
